import Mathlib

/-!
# Verification of the zod-web-api record-building pipeline

This development shallowly embeds the core of the `zod-web-api` package
(`src/main.ts`): the path parser `getPaths`, the inverse `formatPaths`,
the record builder `toRecord` / `setValue` with its merge callback, the
value coercion step (empty values, `JSON.parse` fallback), and the entry
source adapters (`parseQueryAsync`, `parseFormDataAsync`,
`parseRequestAsync`) together with the `zt.json` transform helper.

Strings are modelled as `List Char`, JavaScript runtime values as the
inductive `JSVal`.  JavaScript objects are insertion-ordered association
lists, arrays are element lists (holes materialised as `undefined`)
carrying their non-index string properties.  Platform builtins used by
the source (`JSON.parse`, the regex `(\w*)\[(\d+)\]`, `String.split`,
number-to-string conversion) are modelled explicitly; each model notes
its boundary where one exists.
-/

namespace ZodWebApi

/-! ## Characters and decimal numerals -/

/-- Model of the regex class `\w` (the source pattern runs without the
unicode flag, so `\w` is exactly ASCII `[A-Za-z0-9_]`). -/
def isWordChar (c : Char) : Bool :=
  c.isAlpha || c.isDigit || c = '_'

/-- Model of the regex class `\d` (ASCII `[0-9]`). -/
def isDigit09 (c : Char) : Bool :=
  c.isDigit

/-- Numeric value of a decimal digit character. -/
def digitVal (c : Char) : Nat :=
  c.toNat - 48

/-- Decimal digit character for a value below ten. -/
def digitChar09 (n : Nat) : Char :=
  Char.ofNat (48 + n)

/-- Fuel-driven decimal rendering (least significant digit last). -/
def decDigitsAux : Nat → Nat → List Char
  | 0, _ => []
  | fuel + 1, n =>
    if n < 10 then [digitChar09 n]
    else decDigitsAux fuel (n / 10) ++ [digitChar09 (n % 10)]

/-- Decimal rendering of a natural number, the model of JavaScript's
number-to-string conversion (template literals, object key coercion)
restricted to non-negative integers. -/
def natToChars (n : Nat) : List Char :=
  decDigitsAux (n + 1) n

/-- Decimal reading of a digit string, the model of `Number(digits)`
for the bracket-index capture group.  The model is an exact unbounded
natural while `Number` rounds above `2 ^ 53`, and array indices stop
at `2 ^ 32 - 2`; theorems that rely on distinct indices addressing
distinct slots bound them accordingly. -/
def charsToNat (s : List Char) : Nat :=
  s.foldl (fun a c => 10 * a + digitVal c) 0

/-! ## JavaScript runtime values

`JSVal` models the values flowing through `toRecord` / `setValue`:
the absent marker `undefined`, JSON scalars, opaque binary `File`
handles (name and size are the two attributes the source inspects),
arrays (element list plus the array's non-index string properties,
which plain JavaScript arrays can carry), and plain objects as
insertion-ordered association lists.  JSON numbers are modelled as
integers; the development only ever feeds integer literals through
`JSON.parse`, so the float behaviour of JavaScript numbers is outside
the model's boundary. -/

inductive JSVal where
  | undef
  | jnull
  | jbool (b : Bool)
  | jnum (n : Int)
  | jstr (s : List Char)
  | jfile (name : List Char) (size : Nat)
  | jarr (elems : List JSVal) (props : List (List Char × JSVal))
  | jobj (props : List (List Char × JSVal))

instance : Inhabited JSVal := ⟨.undef⟩

/-- A raw entry value as produced by `URLSearchParams` / `FormData`:
a string or a binary file handle. -/
inductive RawVal where
  | rstr (s : List Char)
  | rfile (name : List Char) (size : Nat)
  deriving DecidableEq

/-- A raw entry: a key together with a raw value. -/
abbrev RawEntry := List Char × RawVal

/-- A path segment as produced by `getPaths`: a string field name or a
numeric array index. -/
inductive Key where
  | field (s : List Char)
  | idx (n : Nat)
  deriving DecidableEq

mutual

/-- Structural Boolean equality on `JSVal` (used to derive decidable
equality, which the automatic deriving cannot produce for this nested
inductive). -/
def jsBeq : JSVal → JSVal → Bool
  | .undef, .undef => true
  | .jnull, .jnull => true
  | .jbool b, .jbool c => b == c
  | .jnum n, .jnum m => n == m
  | .jstr s, .jstr t => s == t
  | .jfile n s, .jfile n2 s2 => n == n2 && s == s2
  | .jarr es ps, .jarr es2 ps2 => jsBeqList es es2 && jsBeqProps ps ps2
  | .jobj ps, .jobj ps2 => jsBeqProps ps ps2
  | _, _ => false

/-- Pointwise `jsBeq` on element lists. -/
def jsBeqList : List JSVal → List JSVal → Bool
  | [], [] => true
  | v :: r, w :: r2 => jsBeq v w && jsBeqList r r2
  | _, _ => false

/-- Pointwise `jsBeq` on property lists. -/
def jsBeqProps : List (List Char × JSVal) → List (List Char × JSVal) → Bool
  | [], [] => true
  | (k, v) :: r, (k2, w) :: r2 => k == k2 && jsBeq v w && jsBeqProps r r2
  | _, _ => false

end

mutual

def jsBeq_refl : ∀ v, jsBeq v v = true
  | .undef => rfl
  | .jnull => rfl
  | .jbool b => by simp [jsBeq]
  | .jnum n => by simp [jsBeq]
  | .jstr s => by simp [jsBeq]
  | .jfile n s => by simp [jsBeq]
  | .jarr es ps => by simp [jsBeq, jsBeqList_refl es, jsBeqProps_refl ps]
  | .jobj ps => by simp [jsBeq, jsBeqProps_refl ps]

def jsBeqList_refl : ∀ l, jsBeqList l l = true
  | [] => rfl
  | v :: r => by simp [jsBeqList, jsBeq_refl v, jsBeqList_refl r]

def jsBeqProps_refl : ∀ l, jsBeqProps l l = true
  | [] => rfl
  | (k, v) :: r => by simp [jsBeqProps, jsBeq_refl v, jsBeqProps_refl r]

end

mutual

def jsBeq_eq : ∀ v w, jsBeq v w = true → v = w
  | .undef, .undef, _ => rfl
  | .jnull, .jnull, _ => rfl
  | .jbool b, .jbool c, h => by simp only [jsBeq, beq_iff_eq] at h; rw [h]
  | .jnum n, .jnum m, h => by simp only [jsBeq, beq_iff_eq] at h; rw [h]
  | .jstr s, .jstr t, h => by simp only [jsBeq, beq_iff_eq] at h; rw [h]
  | .jfile n s, .jfile n2 s2, h => by
      simp only [jsBeq, Bool.and_eq_true, beq_iff_eq] at h
      rw [h.1, h.2]
  | .jarr es ps, .jarr es2 ps2, h => by
      simp only [jsBeq, Bool.and_eq_true] at h
      rw [jsBeqList_eq es es2 h.1, jsBeqProps_eq ps ps2 h.2]
  | .jobj ps, .jobj ps2, h => by
      rw [jsBeqProps_eq ps ps2 (by simpa [jsBeq] using h)]
  | .undef, .jnull, h | .undef, .jbool _, h | .undef, .jnum _, h
  | .undef, .jstr _, h | .undef, .jfile _ _, h | .undef, .jarr _ _, h
  | .undef, .jobj _, h | .jnull, .undef, h | .jnull, .jbool _, h
  | .jnull, .jnum _, h | .jnull, .jstr _, h | .jnull, .jfile _ _, h
  | .jnull, .jarr _ _, h | .jnull, .jobj _, h | .jbool _, .undef, h
  | .jbool _, .jnull, h | .jbool _, .jnum _, h | .jbool _, .jstr _, h
  | .jbool _, .jfile _ _, h | .jbool _, .jarr _ _, h | .jbool _, .jobj _, h
  | .jnum _, .undef, h | .jnum _, .jnull, h | .jnum _, .jbool _, h
  | .jnum _, .jstr _, h | .jnum _, .jfile _ _, h | .jnum _, .jarr _ _, h
  | .jnum _, .jobj _, h | .jstr _, .undef, h | .jstr _, .jnull, h
  | .jstr _, .jbool _, h | .jstr _, .jnum _, h | .jstr _, .jfile _ _, h
  | .jstr _, .jarr _ _, h | .jstr _, .jobj _, h | .jfile _ _, .undef, h
  | .jfile _ _, .jnull, h | .jfile _ _, .jbool _, h | .jfile _ _, .jnum _, h
  | .jfile _ _, .jstr _, h | .jfile _ _, .jarr _ _, h | .jfile _ _, .jobj _, h
  | .jarr _ _, .undef, h | .jarr _ _, .jnull, h | .jarr _ _, .jbool _, h
  | .jarr _ _, .jnum _, h | .jarr _ _, .jstr _, h | .jarr _ _, .jfile _ _, h
  | .jarr _ _, .jobj _, h | .jobj _, .undef, h | .jobj _, .jnull, h
  | .jobj _, .jbool _, h | .jobj _, .jnum _, h | .jobj _, .jstr _, h
  | .jobj _, .jfile _ _, h | .jobj _, .jarr _ _, h => Bool.noConfusion h

def jsBeqList_eq : ∀ l l2, jsBeqList l l2 = true → l = l2
  | [], [], _ => rfl
  | v :: r, w :: r2, h => by
      simp only [jsBeqList, Bool.and_eq_true] at h
      rw [jsBeq_eq v w h.1, jsBeqList_eq r r2 h.2]
  | [], _ :: _, h => Bool.noConfusion h
  | _ :: _, [], h => Bool.noConfusion h

def jsBeqProps_eq : ∀ l l2, jsBeqProps l l2 = true → l = l2
  | [], [], _ => rfl
  | (k, v) :: r, (k2, w) :: r2, h => by
      simp only [jsBeqProps, Bool.and_eq_true, beq_iff_eq] at h
      rw [h.1.1, jsBeq_eq v w h.1.2, jsBeqProps_eq r r2 h.2]
  | [], _ :: _, h => Bool.noConfusion h
  | _ :: _, [], h => Bool.noConfusion h

end

instance : DecidableEq JSVal := fun a b =>
  decidable_of_iff (jsBeq a b = true) ⟨jsBeq_eq a b, fun h => h ▸ jsBeq_refl a⟩

/-! ## Canonical forms

JavaScript object properties are insertion-ordered, but none of the
record consumers in this package (the Zod validator, the examples, the
tests) observe that order.  Two built records are therefore considered
the same when they agree as key-to-value maps at every depth.  `canon`
computes a canonical representative by sorting every property list by
key, so map equality becomes equality of canonical forms. -/

/-- Ordered insertion of a property by the lexicographic order on
keys (ties keep the existing entry first). -/
def insProp (p : List Char × JSVal) : List (List Char × JSVal) → List (List Char × JSVal)
  | [] => [p]
  | q :: qs => if p.1 < q.1 then p :: q :: qs else q :: insProp p qs

/-- Sort a property list by key. -/
def sortProps (ps : List (List Char × JSVal)) : List (List Char × JSVal) :=
  ps.foldr insProp []

mutual

/-- Canonical form: sort every property list by key, at every depth. -/
def canon : JSVal → JSVal
  | .jobj ps => .jobj (sortProps (canonProps ps))
  | .jarr es ps => .jarr (canonList es) (sortProps (canonProps ps))
  | v => v

/-- `canon` mapped over an element list. -/
def canonList : List JSVal → List JSVal
  | [] => []
  | v :: rest => canon v :: canonList rest

/-- `canon` mapped over the values of a property list. -/
def canonProps : List (List Char × JSVal) → List (List Char × JSVal)
  | [] => []
  | (k, v) :: rest => (k, canon v) :: canonProps rest

end

/-- The keys of a property list. -/
def keysOf (ps : List (List Char × JSVal)) : List (List Char) :=
  ps.map Prod.fst

/-- Well-formed values: every property list has pairwise distinct keys.
Every value the record builder constructs from the empty root is
well-formed, because property updates replace in place and only fresh
keys are appended. -/
inductive WfJS : JSVal → Prop where
  | undef : WfJS .undef
  | jnull : WfJS .jnull
  | jbool (b : Bool) : WfJS (.jbool b)
  | jnum (n : Int) : WfJS (.jnum n)
  | jstr (s : List Char) : WfJS (.jstr s)
  | jfile (n : List Char) (sz : Nat) : WfJS (.jfile n sz)
  | jarr {es : List JSVal} {ps : List (List Char × JSVal)} :
      (∀ v ∈ es, WfJS v) → (∀ kv ∈ ps, WfJS kv.2) → (keysOf ps).Nodup →
      WfJS (.jarr es ps)
  | jobj {ps : List (List Char × JSVal)} :
      (∀ kv ∈ ps, WfJS kv.2) → (keysOf ps).Nodup → WfJS (.jobj ps)

/-! ## The path parser (`getPaths`) and its inverse (`formatPaths`)

`getPaths` splits the key on `.` and runs the regex
`(\w*)\[(\d+)\]` (via `exec`, i.e. first match anywhere in the token)
on each token.  Because `\w` cannot match `[` and `\d` cannot match
`]`, the regex engine's backtracking is vacuous for this pattern: a
match attempt at a position succeeds exactly when the maximal word run
from that position is followed by `[`, one or more digits, and `]`.
`execPattern` therefore tries the anchored `matchAt` at every position
from the left, which is precisely `exec`'s leftmost-match semantics
for this pattern. -/

/-- Model of `String.prototype.split(".")`:
`"a..b"` yields `["a", "", "b"]` and `""` yields `[""]`. -/
def splitDot : List Char → List (List Char)
  | [] => [[]]
  | c :: rest =>
    if c = '.' then [] :: splitDot rest
    else
      match splitDot rest with
      | t :: ts => (c :: t) :: ts
      | [] => [[c]]

/-- Join token lists back with `.` separators (inverse of `splitDot`). -/
def dotJoin : List (List Char) → List Char
  | [] => []
  | [t] => t
  | t :: ts => t ++ '.' :: dotJoin ts

/-- Anchored match of `(\w*)\[(\d+)\]` at the start of `s`, returning
the two capture groups. -/
def matchAt (s : List Char) : Option (List Char × List Char) :=
  match s.dropWhile isWordChar with
  | '[' :: rest =>
    match rest.takeWhile isDigit09, rest.dropWhile isDigit09 with
    | [], _ => none
    | d, ']' :: _ => some (s.takeWhile isWordChar, d)
    | _, _ => none
  | _ => none

/-- Model of `/(\w*)\[(\d+)\]/.exec(s)`: the leftmost match. -/
def execPattern : List Char → Option (List Char × List Char)
  | [] => none
  | c :: rest =>
    match matchAt (c :: rest) with
    | some r => some r
    | none => execPattern rest

/-- The segments one dot-delimited token contributes: the token itself
as a literal field name when the regex does not match; otherwise the
bracket index alone when the captured field name is empty, or the
field name followed by the index. -/
def parseToken (tok : List Char) : List Key :=
  match execPattern tok with
  | none => [.field tok]
  | some (w, d) => if w = [] then [.idx (charsToNat d)] else [.field w, .idx (charsToNat d)]

/-- Model of `getPaths` (src/main.ts:197): split on `.`, flat-map each
token through the regex. -/
def getPaths (name : List Char) : List Key :=
  if name = [] then [] else ((splitDot name).map parseToken).flatten

/-- One step of the `formatPaths` reduce: an index appends `[n]`, a
field name joins with `.` unless the accumulator or the name is empty. -/
def formatStep (name : List Char) (k : Key) : List Char :=
  match k with
  | .idx n => name ++ '[' :: (natToChars n ++ [']'])
  | .field s => if name = [] ∨ s = [] then name ++ s else name ++ '.' :: s

/-- Model of `formatPaths` (src/main.ts:225). -/
def formatPaths (paths : List Key) : List Char :=
  paths.foldl formatStep []

/-! ## Record operations (`setValue`, `toRecord`)

Property reads and writes on `JSVal`.  The embedding is an
*own-property* model: `lookupProp`/`readKey` return `undefined` for a
key that is not stored, and `writeKey` always creates or updates an
own property.  The source's `pointer[key]` (src/main.ts:180) instead
traverses the prototype chain — on a fresh `{}`, `pointer["toString"]`
is the inherited truthy function `Object.prototype.toString`,
`pointer["__proto__"] = v` invokes an inherited setter, on an array
`pointer["length"]` and canonical numeric string keys address the live
length and the elements, and writing onto a scalar raises a strict
mode `TypeError` (the package is an ES module).  None of that is
modelled here.  Record-level theorems meant to describe the program
therefore quantify over the exact fragment delimited further below by
`safeFieldB` / `safePathB` / `noNestingB`, on which the own-property
model and the source agree step for step; outside the fragment the
program's prototype interaction genuinely breaks the merge laws of the
specification (see the records of the builder claims). -/

/-- A property key as a string: numeric keys coerce to their decimal
representation, as JavaScript property access does. -/
def keyStr : Key → List Char
  | .field s => s
  | .idx n => natToChars n

/-- Look a key up in a property list: own properties only, `undefined`
when the key is not stored (the source read additionally consults the
prototype chain — see the fragment note above). -/
def lookupProp (k : List Char) : List (List Char × JSVal) → JSVal
  | [] => .undef
  | (k2, v) :: rest => if k = k2 then v else lookupProp k rest

/-- Does a property list contain a key? -/
def containsKey (k : List Char) : List (List Char × JSVal) → Bool
  | [] => false
  | (k2, _) :: rest => k = k2 || containsKey k rest

/-- Replace the value at an existing key, in place. -/
def updateProp (k : List Char) (v : JSVal) : List (List Char × JSVal) → List (List Char × JSVal)
  | [] => []
  | (k2, w) :: rest => if k = k2 then (k2, v) :: rest else (k2, w) :: updateProp k v rest

/-- JavaScript property assignment on an association list: update in
place when the key exists, append otherwise. -/
def setProp (ps : List (List Char × JSVal)) (k : List Char) (v : JSVal) :
    List (List Char × JSVal) :=
  if containsKey k ps then updateProp k v ps else ps ++ [(k, v)]

/-- Array element assignment: pad with `undefined` holes up to the
index, as JavaScript sparse assignment materialises when read back. -/
def padSet : List JSVal → Nat → JSVal → List JSVal
  | [], 0, v => [v]
  | [], n + 1, v => .undef :: padSet [] n v
  | _ :: rest, 0, v => v :: rest
  | e :: rest, n + 1, v => e :: padSet rest n v

/-- Array element read (`undefined` beyond the length and in holes). -/
def elemAt : List JSVal → Nat → JSVal
  | [], _ => .undef
  | e :: _, 0 => e
  | _ :: rest, n + 1 => elemAt rest n

/-- Read `t[k]`, own properties only: exact for the source's
`pointer[key]` precisely on `safeFieldB` names and in-range indices. -/
def readKey (t : JSVal) (k : Key) : JSVal :=
  match t, k with
  | .jobj ps, k => lookupProp (keyStr k) ps
  | .jarr es _, .idx n => elemAt es n
  | .jarr _ ps, .field s => lookupProp s ps
  | _, _ => (.undef)

/-- Write `t[k] = v` as an own-property assignment (the source's
assignment to `__proto__` or to an array's `length` instead triggers
inherited setter behaviour — both names are outside `safeFieldB`). -/
def writeKey (t : JSVal) (k : Key) (v : JSVal) : JSVal :=
  match t, k with
  | .jobj ps, k => .jobj (setProp ps (keyStr k) v)
  | .jarr es ps, .idx n => .jarr (padSet es n v) ps
  | .jarr es ps, .field s => .jarr es (setProp ps s v)
  | t, _ => t

/-- Nullish test (`?? ` triggers on `null` and `undefined`). -/
def nullish : JSVal → Bool
  | .undef => true
  | .jnull => true
  | _ => false

/-- Is the value an object or an array (a writable container)? -/
def isContainer : JSVal → Bool
  | .jarr _ _ => true
  | .jobj _ => true
  | _ => false

/-- The fresh container `setValue` creates when the next segment is a
number (`[]`) or a field name (`{}`). -/
def mkContainer : Key → JSVal
  | .idx _ => .jarr [] []
  | .field _ => .jobj []

/-- `pointer[key] ?? (typeof next === "number" ? [] : {})`. -/
def orContainer (v : JSVal) (next : Key) : JSVal :=
  if nullish v then mkContainer next else v

/-- Model of the `setValue` walk (src/main.ts:170): walk the path,
materialising intermediate containers, and apply the value function to
the previous occupant of the final slot. -/
def setPath : JSVal → List Key → (JSVal → JSVal) → JSVal
  | t, [], _ => t
  | t, [k], f => writeKey t k (f (readKey t k))
  | t, k :: k2 :: rest, f =>
    writeKey t k (setPath (orContainer (readKey t k) k2) (k2 :: rest) f)

/-- Read a whole path (the meaning of `record[p]` for a parsed path). -/
def getPath : JSVal → List Key → JSVal
  | t, [] => t
  | t, k :: rest => getPath (readKey t k) rest

/-- The single-chain tree the walk builds below a fresh slot: each
segment materialises its own fresh container and stores the rest of
the chain (or the leaf value) at that segment's key. -/
def chainNode : List Key → JSVal → JSVal
  | [], v => v
  | k :: rest, v => writeKey (mkContainer k) k (chainNode rest v)

/-! ## Coercion and the merge callback -/

/-- JavaScript truthiness: `undefined`, `null`, `false`, `0` and the
empty string are falsy; every object (arrays, files) is truthy.
(`NaN` and `-0` are outside the integer number model.) -/
def truthy : JSVal → Bool
  | .undef => false
  | .jnull => false
  | .jbool b => b
  | .jnum n => !(n = 0 : Bool)
  | .jstr s => !(s = [] : Bool)
  | .jfile _ _ => true
  | .jarr _ _ => true
  | .jobj _ => true

/-- `prev.concat(next)`: builds a fresh array from `prev`'s elements,
spreading `next` when it is itself an array; string properties of
either array are not copied. -/
def arrayConcat (es : List JSVal) (next : JSVal) : JSVal :=
  match next with
  | .jarr es2 _ => .jarr (es ++ es2) []
  | v => .jarr (es ++ [v]) []

/-- The merge callback `toRecord` passes to `setValue`
(src/main.ts:134): note the tests are JavaScript truthiness checks
(`!prev`, `!next`), not absence checks. -/
def merge (prev next : JSVal) : JSVal :=
  if !truthy prev then next
  else if !truthy next then prev
  else
    match prev with
    | .jarr es _ => arrayConcat es next
    | _ => .jarr [prev, next] []

/-- JSON whitespace accepted around a JSON text. -/
def isJsonWs (c : Char) : Bool :=
  c = ' ' || c = '\t' || c = '\n' || c = '\r'

/-- Strip JSON whitespace from both ends. -/
def trimWs (s : List Char) : List Char :=
  ((s.dropWhile isJsonWs).reverse.dropWhile isJsonWs).reverse

/-- A valid JSON integer digit sequence (no leading zero except `0`). -/
def jsonIntDigitsOk : List Char → Bool
  | [] => false
  | [c] => isDigit09 c
  | c :: rest => isDigit09 c && !(c = '0' : Bool) && rest.all isDigit09

/-- Parse a JSON integer literal with optional sign. -/
def jsonNum (t : List Char) : Option JSVal :=
  match t with
  | '-' :: ds => if jsonIntDigitsOk ds then some (.jnum (-(charsToNat ds : Int))) else none
  | ds => if jsonIntDigitsOk ds then some (.jnum (charsToNat ds)) else none

/-- Parse a JSON string literal without escape sequences. -/
def jsonStringLit (t : List Char) : Option JSVal :=
  match t with
  | '"' :: rest =>
    if rest ≠ [] ∧ rest.getLast? = some '"'
        ∧ rest.dropLast.all (fun c => !(c = '"' : Bool) && !(c = '\\' : Bool)) then
      some (.jstr rest.dropLast)
    else none
  | _ => none

/-- Model of the platform's `JSON.parse` on the scalar fragment:
`true`, `false`, `null`, signed integer literals and escape-free
string literals, with surrounding whitespace.  Composite JSON (arrays,
objects), floats, exponents and escape sequences are treated as parse
failures, so such a value coerces to its original string here where
the source produces the parsed structure; theorems over arbitrary raw
values inherit this value-model boundary. -/
def jsonParse (s : List Char) : Option JSVal :=
  let t := trimWs s
  if t = ("true").toList then some (.jbool true)
  else if t = ("false").toList then some (.jbool false)
  else if t = ("null").toList then some .jnull
  else
    match jsonStringLit t with
    | some v => some v
    | none => jsonNum t

/-- Model of `safeParseJSON` (src/main.ts:150): `JSON.parse` with the
original string as the fallback on failure. -/
def safeParseJSON (s : List Char) : JSVal :=
  match jsonParse s with
  | some v => v
  | none => .jstr s

/-- The coercion step at the top of `toRecord`'s loop
(src/main.ts:121): an empty string, or a file with empty name and zero
size, becomes `undefined`; any other string goes through
`safeParseJSON`; non-empty files pass through untouched. -/
def coerce : RawVal → JSVal
  | .rstr s => if s = [] then .undef else safeParseJSON s
  | .rfile n sz => if n = [] ∧ sz = 0 then .undef else .jfile n sz

/-- One iteration of `toRecord`'s entry loop. -/
def toRecordStep (t : JSVal) (e : RawEntry) : JSVal :=
  setPath t (getPaths e.1) (fun prev => merge prev (coerce e.2))

/-- Model of `toRecord` (src/main.ts:121): fold the entry sequence
over the empty root object.  In the pipeline the root is not empty:
`transform(toRecord)` passes zod's refinement context as the `record`
parameter, so the real root owns `addIssue` and `path` (the `ctxNames`
below); the empty-root model is exact for entries whose first segment
avoids those names. -/
def toRecord (entries : List RawEntry) : JSVal :=
  entries.foldl toRecordStep (.jobj [])

/-! ## Entry source adapters

A request is abstracted to the three pieces the adapters inspect: the
URL's query parameter collection, the form-data body entries and the
`Content-Type` header.  The Zod schema is an opaque validator
`JSVal → Option JSVal` applied to the assembled record, exactly where
`.transform(toRecord).pipe(schema).parse(...)` applies it. -/

/-- The model of a `Request`. -/
structure MockRequest where
  queryEntries : List (List Char × List Char)
  formEntries : List RawEntry
  contentType : Option (List Char)

/-- An opaque external validator (`schema.parse`, failure as `none`). -/
def Schema := JSVal → Option JSVal

/-- Query entries as raw entries (query values are always strings). -/
def queryRaw (r : MockRequest) : List RawEntry :=
  r.queryEntries.map (fun kv => (kv.1, RawVal.rstr kv.2))

/-- Model of `parseQueryAsync` (src/main.ts:25) applied to a request:
build the record from the URL's query parameters and validate. -/
def parseQueryAsync (r : MockRequest) (schema : Schema) : Option JSVal :=
  schema (toRecord (queryRaw r))

/-- Model of `parseFormDataAsync` (src/main.ts:63) applied to an entry
sequence: build the record from the form entries and validate. -/
def parseFormDataAsync (entries : List RawEntry) (schema : Schema) : Option JSVal :=
  schema (toRecord entries)

/-- Does `s` start with `needle`? (model of a substring test). -/
def startsSeq : List Char → List Char → Bool
  | _, [] => true
  | [], _ :: _ => false
  | c :: rest, d :: ds => c = d && startsSeq rest ds

/-- Model of `String.prototype.includes`: does `hay` contain `needle`
as a contiguous subsequence? -/
def hasSeq (needle : List Char) : List Char → Bool
  | [] => needle.isEmpty
  | c :: rest => startsSeq (c :: rest) needle || hasSeq needle rest

/-- Model of `containsFormData` (src/main.ts:116): the header must be
present, non-empty (a present empty header is falsy) and contain
`multipart/form-data`. -/
def containsFormData (r : MockRequest) : Bool :=
  match r.contentType with
  | none => false
  | some ct => !(ct = [] : Bool) && hasSeq (("multipart/form-data").toList) ct

/-- Model of `parseRequestAsync` (src/main.ts:103): delegate to the
query parser unless the request holds multipart form data; otherwise
append every query entry after the form entries and parse those. -/
def parseRequestAsync (r : MockRequest) (schema : Schema) : Option JSVal :=
  if !containsFormData r then parseQueryAsync r schema
  else parseFormDataAsync (r.formEntries ++ queryRaw r) schema

/-! ## The `zt.json` transform helper -/

/-- The input type of the transform produced by `zt.json`:
`string | null | undefined`. -/
inductive ZtIn where
  | znull
  | zundef
  | zstr (s : List Char)
  deriving DecidableEq

/-- The outcome of a transform: a value, or the abort sentinel
`z.NEVER`. -/
inductive ZtResult where
  | ok (v : JSVal)
  | never
  deriving DecidableEq

/-- Model of `zt.json(schema)` (the transform body): pass `null` and
`undefined` through unchanged; otherwise `JSON.parse` the string and
run the inner validator inside the same `try`, so a decode failure and
an inner-validator failure alike add the issue
"Must be a valid JSON string." and return `z.NEVER`.  The issue list
models `ctx.addIssue`. -/
def ztJson (inner : JSVal → Option JSVal) : ZtIn → ZtResult × List (List Char)
  | .znull => (.ok .jnull, [])
  | .zundef => (.ok .undef, [])
  | .zstr s =>
    match jsonParse s with
    | none => (.never, [("Must be a valid JSON string.").toList])
    | some parsed =>
      match inner parsed with
      | none => (.never, [("Must be a valid JSON string.").toList])
      | some out => (.ok out, [])

/-! ## Specification-side definitions

These definitions are written from the specification's words (not from
the source) so that each refinement claim compares the embedded source
function against them. -/

/-- The absent marker of the specification: `undefined`. -/
def isAbsentMarker : JSVal → Bool
  | .undef => true
  | _ => false

/-- The merge of spec §4.2 exactly as claim C1 states it: the rules
test *absence*, and an array previous occupant gets `next` appended as
one element. -/
def specMergeClaimed (prev next : JSVal) : JSVal :=
  if isAbsentMarker prev then next
  else if isAbsentMarker next then prev
  else
    match prev with
    | .jarr es ps => .jarr (es ++ [next]) ps
    | _ => .jarr [prev, next] []

/-- Falsiness as the specification would have to state it to match the
code: absent, `null`, `false`, zero, or the empty string. -/
def falsyJS : JSVal → Bool
  | .undef => true
  | .jnull => true
  | .jbool b => !b
  | .jnum n => n = 0
  | .jstr s => s.isEmpty
  | _ => false

/-- The amended merge rules: the first two tests are truthiness tests,
and an array previous occupant is concatenated with `next` — spreading
`next`'s elements when `next` is itself an array and dropping string
properties — rather than receiving it as one appended element. -/
def specMergeAmended (prev next : JSVal) : JSVal :=
  if falsyJS prev then next
  else if falsyJS next then prev
  else
    match prev, next with
    | .jarr es _, .jarr es2 _ => .jarr (es ++ es2) []
    | .jarr es _, v => .jarr (es ++ [v]) []
    | p, v => .jarr [p, v] []

/-- Is a raw value empty in the sense of spec §4.2 step 1: an empty
string, or a binary handle with empty name and zero size? -/
def isEmptyRaw : RawVal → Bool
  | .rstr s => s.isEmpty
  | .rfile n sz => n.isEmpty && sz = 0

/-- The coercion of spec §4.2 step 1, written from the specification:
empty values become the absent marker; otherwise strings are
JSON-parsed with the original string as fallback and binary handles
pass through opaque. -/
def specCoerce (v : RawVal) : JSVal :=
  if isEmptyRaw v then .undef
  else
    match v with
    | .rstr s => (jsonParse s).getD (.jstr s)
    | .rfile n sz => .jfile n sz

/-- The behaviour of `json(innerValidator)` as spec §4.4 states it:
absent values pass through unchanged; otherwise decode failure or
inner-validator failure reports the issue and signals the abort
sentinel, and success returns the inner validator's output. -/
def specZtJson (inner : JSVal → Option JSVal) (v : ZtIn) : ZtResult × List (List Char) :=
  match v with
  | .znull => (.ok .jnull, [])
  | .zundef => (.ok .undef, [])
  | .zstr s =>
    match (jsonParse s).bind inner with
    | none => (.never, [("Must be a valid JSON string.").toList])
    | some out => (.ok out, [])

/-- The claim's bare-field pattern: a token containing no brackets. -/
def claimBareB (tok : List Char) : Bool :=
  tok.all (fun c => !(c = '[' : Bool) && !(c = ']' : Bool))

/-- The claim's full bracket pattern `fieldName? "[" digits "]"`,
matched against the whole token: an optional word-character field name
followed by exactly one bracketed non-empty digit group, with nothing
after the closing bracket. -/
def claimFullB (tok : List Char) : Bool :=
  match tok.dropWhile isWordChar with
  | '[' :: rest =>
    match rest.takeWhile isDigit09, rest.dropWhile isDigit09 with
    | [], _ => false
    | _, [']'] => true
    | _, _ => false
  | _ => false

/-- A segment of the claim C2 grammar
`segment = fieldName? "[" digits "]" | fieldName`: a non-empty word
token, or a full bracket token. -/
def specSegB (tok : List Char) : Bool :=
  (!tok.isEmpty && tok.all isWordChar) || claimFullB tok

/-- A syntactically valid path string per the claim C2 grammar
`segment ("." segment)*`. -/
def specValidPathB (s : List Char) : Bool :=
  !s.isEmpty && (splitDot s).all specSegB

/-- Does the token start with a bracket group `"[" digits "]"`? -/
def groupAtB : List Char → Bool
  | '[' :: rest =>
    match rest.takeWhile isDigit09, rest.dropWhile isDigit09 with
    | [], _ => false
    | _, ']' :: _ => true
    | _, _ => false
  | _ => false

/-- Does the token contain a bracket group `"[" digits "]"` anywhere?
This is exactly the condition under which the source regex can match. -/
def hasGroupB : List Char → Bool
  | [] => false
  | c :: rest => groupAtB (c :: rest) || hasGroupB rest

/-- A canonically written bracket token `fieldName? "[" digits "]"`:
word-character field name (which may be empty only in the first
segment), digits that read back and re-render to themselves (no
leading zeros) and stay below `2 ^ 53` (the range where the JavaScript
number model is exact), and nothing after the bracket. -/
def canonBracketB (first : Bool) (tok : List Char) : Bool :=
  let f := tok.takeWhile isWordChar
  match tok.dropWhile isWordChar with
  | '[' :: rest =>
    let d := rest.takeWhile isDigit09
    !d.isEmpty && rest.dropWhile isDigit09 = [']']
      && d = natToChars (charsToNat d) && charsToNat d < 2 ^ 53
      && (first || !f.isEmpty)
  | _ => false

/-- A canonical token: a non-empty bare word token, or a canonical
bracket token. -/
def canonTokenB (first : Bool) (tok : List Char) : Bool :=
  (!tok.isEmpty && tok.all isWordChar) || canonBracketB first tok

/-- A canonically written path string: the strings `formatPaths` can
produce.  Compared with the claim C2 grammar this additionally
requires that a bare bracket segment `[n]` appears only first (later
ones lose their `.` separator when re-rendered) and that indices carry
no leading zeros. -/
def canonPathB (s : List Char) : Bool :=
  match splitDot s with
  | [] => false
  | t0 :: rest => canonTokenB true t0 && rest.all (canonTokenB false)

/-- Do two path segments have the same kind (both field names or both
indices)?  The walk creates a mapping or a sequence according to this
kind, so diverging with different kinds makes the two walks fight over
the container's kind. -/
def sameKind : Key → Key → Bool
  | .field _, .field _ => true
  | .idx _, .idx _ => true
  | _, _ => false

/-- Compatibility of two paths: neither is a proper prefix of the
other, and they agree segment for segment until they diverge, the
diverging segments having the same kind. -/
def compatB : List Key → List Key → Bool
  | [], [] => true
  | [], _ :: _ => false
  | _ :: _, [] => false
  | a :: p, b :: q => if a = b then compatB p q else sameKind a b

/-! ## The exact fragment of the property model

The embedding reads and writes own properties only, while the source's
`pointer[key]` (src/main.ts:180) traverses the prototype chain: on a
plain object, `pointer["toString"]` is the inherited (truthy) function
`Object.prototype.toString`, `pointer["__proto__"] = v` invokes an
inherited setter instead of creating an own property, and on an array
`pointer["length"]` and all-digit string keys address the live length
and the elements.  The predicates below delimit the paths and entry
sequences on which the own-property embedding coincides with the
source step for step; record-level theorems that are meant to transfer
to the program quantify over this fragment. -/

/-- The string-keyed own properties of `Object.prototype` together
with the `__proto__` accessor: reading any of these on a plain object
returns a truthy inherited value rather than `undefined`, and
assigning `__proto__` redirects the walk into the shared prototype. -/
def objectProtoNames : List (List Char) :=
  [("__proto__").toList, ("constructor").toList, ("hasOwnProperty").toList,
   ("isPrototypeOf").toList, ("propertyIsEnumerable").toList,
   ("toLocaleString").toList, ("toString").toList, ("valueOf").toList,
   ("__defineGetter__").toList, ("__defineSetter__").toList,
   ("__lookupGetter__").toList, ("__lookupSetter__").toList]

/-- The string-keyed properties of `Array.prototype` (ES2023) plus the
per-array own property `length`: reading one of these on an array hits
an inherited method or the live length, and assigning `length` resizes
the array. -/
def arrayProtoNames : List (List Char) :=
  [("length").toList, ("at").toList, ("concat").toList,
   ("copyWithin").toList, ("entries").toList, ("every").toList,
   ("fill").toList, ("filter").toList, ("find").toList,
   ("findIndex").toList, ("findLast").toList, ("findLastIndex").toList,
   ("flat").toList, ("flatMap").toList, ("forEach").toList,
   ("includes").toList, ("indexOf").toList, ("join").toList,
   ("keys").toList, ("lastIndexOf").toList, ("map").toList,
   ("pop").toList, ("push").toList, ("reduce").toList,
   ("reduceRight").toList, ("reverse").toList, ("shift").toList,
   ("slice").toList, ("some").toList, ("sort").toList,
   ("splice").toList, ("toReversed").toList, ("toSorted").toList,
   ("toSpliced").toList, ("unshift").toList, ("values").toList,
   ("with").toList]

/-- The own properties of the zod `RefinementCtx`.  The pipeline calls
`transform(toRecord)` (src/main.ts:32), so zod passes its refinement
context as `toRecord`'s second argument and the default root `{}`
(src/main.ts:121) is overridden: the real root already owns `addIssue`
(a function) and `path` (a getter). -/
def ctxNames : List (List Char) :=
  [("addIssue").toList, ("path").toList]

/-- A field name on which the own-property model of `pointer[key]` is
exact: not an inherited `Object.prototype` or `Array.prototype` name,
not a root context property, and not composed purely of digits (on an
array such a name addresses an element, not a string property). -/
def safeFieldB (s : List Char) : Bool :=
  !(objectProtoNames.contains s) && !(arrayProtoNames.contains s)
    && !(ctxNames.contains s) && !(!s.isEmpty && s.all isDigit09)

/-- A path segment inside the exact fragment: a safe field name, or an
index below `2 ^ 32 - 1` (the greatest JavaScript array index is
`2 ^ 32 - 2`; past it `arr[n]` stores a plain string property, and
`Number` itself rounds above `2 ^ 53`). -/
def safeKeyB : Key → Bool
  | .field s => safeFieldB s
  | .idx n => decide (n < 2 ^ 32 - 1)

/-- Every segment of the path lies in the exact fragment. -/
def safePathB (p : List Key) : Bool :=
  p.all safeKeyB

/-- Is `p` a proper prefix of `q`?  An entry whose path strictly
extends another entry's path makes the walk descend into the value
written at the shorter path; the embedding does not model descending
into scalars (in strict mode the source throws a `TypeError` there) or
into JSON-parsed structures. -/
def properPrefixB : List Key → List Key → Bool
  | [], [] => false
  | [], _ :: _ => true
  | _ :: _, [] => false
  | a :: p, b :: q => a = b && properPrefixB p q

/-- No parsed path of the entry sequence strictly extends another:
the walk then only ever descends into containers it created itself. -/
def noNestingB (es : List RawEntry) : Bool :=
  es.all fun e1 => es.all fun e2 =>
    !(properPrefixB (getPaths e1.1) (getPaths e2.1))

/-! # Lemmas

## Decimal numerals -/

theorem digitVal_digitChar09 {n : Nat} (h : n < 10) : digitVal (digitChar09 n) = n := by
  interval_cases n <;> decide

theorem isDigit09_digitChar09 {n : Nat} (h : n < 10) : isDigit09 (digitChar09 n) = true := by
  interval_cases n <;> decide

theorem charsToNat_append_singleton (ds : List Char) (c : Char) :
    charsToNat (ds ++ [c]) = 10 * charsToNat ds + digitVal c := by
  simp [charsToNat, List.foldl_append]

theorem decDigitsAux_spec : ∀ fuel n, n < fuel →
    charsToNat (decDigitsAux fuel n) = n ∧ decDigitsAux fuel n ≠ []
      ∧ (decDigitsAux fuel n).all isDigit09 = true
  | 0, n, h => absurd h (Nat.not_lt_zero n)
  | fuel + 1, n, h => by
    by_cases hn : n < 10
    · refine ⟨?_, by simp [decDigitsAux, hn], ?_⟩
      · simp [decDigitsAux, hn, charsToNat, digitVal_digitChar09 hn]
      · simp [decDigitsAux, hn, isDigit09_digitChar09 hn]
    · have hdiv : n / 10 < fuel := by
        have h1 : n / 10 < n := Nat.div_lt_self (by omega) (by omega)
        omega
      obtain ⟨ih1, ih2, ih3⟩ := decDigitsAux_spec fuel (n / 10) hdiv
      refine ⟨?_, by simp [decDigitsAux, hn], ?_⟩
      · rw [decDigitsAux]
        simp only [hn, if_false]
        rw [charsToNat_append_singleton, ih1, digitVal_digitChar09 (Nat.mod_lt n (by omega))]
        omega
      · rw [decDigitsAux]
        simp only [hn, if_false, List.all_append, ih3, Bool.true_and, List.all_cons,
          List.all_nil, Bool.and_true]
        exact isDigit09_digitChar09 (Nat.mod_lt n (by omega))

theorem charsToNat_natToChars (n : Nat) : charsToNat (natToChars n) = n :=
  (decDigitsAux_spec (n + 1) n (Nat.lt_succ_self n)).1

theorem natToChars_ne_nil (n : Nat) : natToChars n ≠ [] :=
  (decDigitsAux_spec (n + 1) n (Nat.lt_succ_self n)).2.1

theorem natToChars_all_digit (n : Nat) : (natToChars n).all isDigit09 = true :=
  (decDigitsAux_spec (n + 1) n (Nat.lt_succ_self n)).2.2

theorem natToChars_injective {n m : Nat} (h : natToChars n = natToChars m) : n = m := by
  have hn := charsToNat_natToChars n
  rw [h, charsToNat_natToChars] at hn
  omega

/-! ## Association list and array slot lemmas -/

theorem lookupProp_updateProp_self (ps : List (List Char × JSVal)) (k : List Char) (v : JSVal)
    (h : containsKey k ps = true) : lookupProp k (updateProp k v ps) = v := by
  induction ps with
  | nil => simp [containsKey] at h
  | cons q rest ih =>
    obtain ⟨k2, w⟩ := q
    by_cases hk : k = k2
    · simp [updateProp, lookupProp, hk]
    · simp only [containsKey, Bool.or_eq_true, decide_eq_true_eq] at h
      rcases h with h | h
      · exact absurd h hk
      · simp [updateProp, lookupProp, hk, ih h]

theorem lookupProp_append_self (ps : List (List Char × JSVal)) (k : List Char) (v : JSVal) :
    lookupProp k (ps ++ [(k, v)]) = if containsKey k ps then lookupProp k ps else v := by
  induction ps with
  | nil => simp [lookupProp, containsKey]
  | cons q rest ih =>
    obtain ⟨k2, w⟩ := q
    by_cases hk : k = k2 <;>
      simp [lookupProp, containsKey, hk, ih]

theorem lookupProp_setProp_self (ps : List (List Char × JSVal)) (k : List Char) (v : JSVal) :
    lookupProp k (setProp ps k v) = v := by
  by_cases h : containsKey k ps = true
  · simp [setProp, h, lookupProp_updateProp_self ps k v h]
  · simp only [Bool.not_eq_true] at h
    simp [setProp, h, lookupProp_append_self]

theorem lookupProp_updateProp_other (ps : List (List Char × JSVal)) (k k2 : List Char)
    (v : JSVal) (h : k2 ≠ k) : lookupProp k2 (updateProp k v ps) = lookupProp k2 ps := by
  induction ps with
  | nil => simp [updateProp]
  | cons q rest ih =>
    obtain ⟨k3, w⟩ := q
    by_cases hk : k = k3
    · subst hk
      simp [updateProp, lookupProp, fun hh => h (hh : k2 = k)]
    · by_cases hk2 : k2 = k3 <;> simp [updateProp, lookupProp, hk, hk2, ih]

theorem lookupProp_setProp_other (ps : List (List Char × JSVal)) (k k2 : List Char)
    (v : JSVal) (h : k2 ≠ k) : lookupProp k2 (setProp ps k v) = lookupProp k2 ps := by
  by_cases hc : containsKey k ps = true
  · simp [setProp, hc, lookupProp_updateProp_other ps k k2 v h]
  · simp only [Bool.not_eq_true] at hc
    simp only [setProp, hc, Bool.false_eq_true, if_false]
    induction ps with
    | nil => simp [lookupProp, h]
    | cons q rest ih =>
      obtain ⟨k3, w⟩ := q
      by_cases hk2 : k2 = k3 <;> simp_all [lookupProp, containsKey]

theorem containsKey_updateProp (ps : List (List Char × JSVal)) (k k2 : List Char) (v : JSVal) :
    containsKey k2 (updateProp k v ps) = containsKey k2 ps := by
  induction ps with
  | nil => simp [updateProp]
  | cons q rest ih =>
    obtain ⟨k3, w⟩ := q
    by_cases hk : k = k3 <;> simp [updateProp, containsKey, hk, ih]

theorem updateProp_updateProp_self (ps : List (List Char × JSVal)) (k : List Char)
    (x y : JSVal) : updateProp k y (updateProp k x ps) = updateProp k y ps := by
  induction ps with
  | nil => simp [updateProp]
  | cons q rest ih =>
    obtain ⟨k3, w⟩ := q
    by_cases hk : k = k3 <;> simp [updateProp, hk, ih]

theorem updateProp_append_of_not_contains (ps : List (List Char × JSVal)) (k : List Char)
    (x y : JSVal) (h : containsKey k ps = false) :
    updateProp k y (ps ++ [(k, x)]) = ps ++ [(k, y)] := by
  induction ps with
  | nil => simp [updateProp]
  | cons q rest ih =>
    obtain ⟨k3, w⟩ := q
    simp only [containsKey, Bool.or_eq_false_iff, decide_eq_false_iff_not] at h
    simp [updateProp, h.1, ih h.2]

theorem containsKey_append_self (ps : List (List Char × JSVal)) (k : List Char) (v : JSVal) :
    containsKey k (ps ++ [(k, v)]) = true := by
  induction ps with
  | nil => simp [containsKey]
  | cons q rest ih => simp [containsKey, ih]

theorem setProp_setProp_self (ps : List (List Char × JSVal)) (k : List Char) (x y : JSVal) :
    setProp (setProp ps k x) k y = setProp ps k y := by
  by_cases h : containsKey k ps = true
  · simp [setProp, h, containsKey_updateProp, updateProp_updateProp_self]
  · simp only [Bool.not_eq_true] at h
    simp [setProp, h, containsKey_append_self, updateProp_append_of_not_contains ps k x y h]

theorem elemAt_padSet_self (es : List JSVal) (n : Nat) (v : JSVal) :
    elemAt (padSet es n v) n = v := by
  induction n generalizing es with
  | zero => cases es <;> simp [padSet, elemAt]
  | succ n ih => cases es <;> simp [padSet, elemAt, ih]

theorem elemAt_padSet_other (es : List JSVal) (n m : Nat) (v : JSVal) (h : m ≠ n) :
    elemAt (padSet es n v) m = elemAt es m := by
  induction n generalizing es m with
  | zero =>
    obtain ⟨m', rfl⟩ : ∃ m', m = m' + 1 := ⟨m - 1, by omega⟩
    cases es <;> simp [padSet, elemAt]
  | succ n ih =>
    cases es with
    | nil =>
      cases m with
      | zero => simp [padSet, elemAt]
      | succ m' => simp only [padSet, elemAt, ih [] m' (by omega)]
    | cons e rest =>
      cases m with
      | zero => simp [padSet, elemAt]
      | succ m' => simp [padSet, elemAt, ih rest m' (by omega)]

theorem padSet_padSet_self (es : List JSVal) (n : Nat) (x y : JSVal) :
    padSet (padSet es n x) n y = padSet es n y := by
  induction n generalizing es with
  | zero => cases es <;> simp [padSet]
  | succ n ih => cases es <;> simp [padSet, ih]

/-! ## Read and write lemmas for `JSVal` slots -/

theorem readKey_writeKey_self (t : JSVal) (k : Key) (v : JSVal)
    (h : isContainer t = true) : readKey (writeKey t k v) k = v := by
  cases t with
  | jobj ps => simp [writeKey, readKey, lookupProp_setProp_self]
  | jarr es ps =>
    cases k with
    | idx n => simp [writeKey, readKey, elemAt_padSet_self]
    | field s => simp [writeKey, readKey, lookupProp_setProp_self]
  | undef => simp [isContainer] at h
  | jnull => simp [isContainer] at h
  | jbool b => simp [isContainer] at h
  | jnum n => simp [isContainer] at h
  | jstr s => simp [isContainer] at h
  | jfile n sz => simp [isContainer] at h

theorem readKey_writeKey_other (t : JSVal) (k k2 : Key) (v : JSVal)
    (h : keyStr k ≠ keyStr k2) : readKey (writeKey t k v) k2 = readKey t k2 := by
  cases t with
  | jobj ps => simp [writeKey, readKey, lookupProp_setProp_other ps _ _ v (Ne.symm h)]
  | jarr es ps =>
    cases k with
    | idx n =>
      cases k2 with
      | idx m =>
        have hnm : m ≠ n := by
          intro hh
          exact h (by simp [keyStr, hh])
        simp [writeKey, readKey, elemAt_padSet_other es n m v hnm]
      | field s => simp [writeKey, readKey]
    | field s =>
      cases k2 with
      | idx m => simp [writeKey, readKey]
      | field s2 =>
        have hs : s2 ≠ s := fun hh => h (by simp [keyStr, hh])
        simp [writeKey, readKey, lookupProp_setProp_other ps _ _ v hs]
  | undef => rfl
  | jnull => rfl
  | jbool b => rfl
  | jnum n => rfl
  | jstr s => rfl
  | jfile n sz => rfl

theorem writeKey_writeKey_self (t : JSVal) (k : Key) (x y : JSVal) :
    writeKey (writeKey t k x) k y = writeKey t k y := by
  cases t with
  | jobj ps => simp [writeKey, setProp_setProp_self]
  | jarr es ps =>
    cases k with
    | idx n => simp [writeKey, padSet_padSet_self]
    | field s => simp [writeKey, setProp_setProp_self]
  | undef => rfl
  | jnull => rfl
  | jbool b => rfl
  | jnum n => rfl
  | jstr s => rfl
  | jfile n sz => rfl

theorem isContainer_writeKey (t : JSVal) (k : Key) (v : JSVal)
    (h : isContainer t = true) : isContainer (writeKey t k v) = true := by
  cases t <;> cases k <;> simp_all [writeKey, isContainer]

theorem isContainer_mk (k : Key) : isContainer (mkContainer k) = true := by
  cases k <;> rfl

theorem nullish_eq_false_of_container {t : JSVal} (h : isContainer t = true) :
    nullish t = false := by
  cases t <;> simp_all [isContainer, nullish]

theorem orContainer_of_container {t : JSVal} (h : isContainer t = true) (k : Key) :
    orContainer t k = t := by
  simp [orContainer, nullish_eq_false_of_container h]

theorem readKey_mk (k k2 : Key) : readKey (mkContainer k) k2 = .undef := by
  cases k <;> cases k2 <;> simp [mkContainer, readKey, lookupProp, elemAt]

/-! ## The single-chain shape of same-key record building -/

theorem chainNode_cons_isContainer (k : Key) (ks : List Key) (v : JSVal) :
    isContainer (chainNode (k :: ks) v) = true := by
  simpa [chainNode] using isContainer_writeKey (mkContainer k) k _ (isContainer_mk k)

theorem setPath_fresh : ∀ (ks : List Key) (k : Key) (f : JSVal → JSVal),
    setPath (mkContainer k) (k :: ks) f = chainNode (k :: ks) (f .undef)
  | [], k, f => by simp [setPath, chainNode, readKey_mk]
  | k2 :: ks', k, f => by
    simp only [setPath, chainNode, readKey_mk, orContainer, nullish, if_true]
    rw [setPath_fresh ks' k2 f]
    rfl

theorem setPath_root_fresh (k : Key) (ks : List Key) (f : JSVal → JSVal) :
    setPath (.jobj []) (k :: ks) f = writeKey (.jobj []) k (chainNode ks (f .undef)) := by
  cases ks with
  | nil => simp [setPath, readKey, lookupProp, chainNode]
  | cons k2 ks' =>
    have hread : readKey (.jobj []) k = .undef := by simp [readKey, lookupProp]
    simp only [setPath, hread, orContainer, nullish, if_true]
    rw [setPath_fresh ks' k2 f]

theorem setPath_chain_update : ∀ (k : Key) (ks : List Key) (w : JSVal) (f : JSVal → JSVal),
    setPath (chainNode (k :: ks) w) (k :: ks) f = chainNode (k :: ks) (f w)
  | k, [], w, f => by
    simp [chainNode, setPath, readKey_writeKey_self _ _ _ (isContainer_mk k),
      writeKey_writeKey_self]
  | k, k2 :: ks', w, f => by
    have hC : isContainer (chainNode (k2 :: ks') w) = true := chainNode_cons_isContainer k2 ks' w
    show setPath (writeKey (mkContainer k) k (chainNode (k2 :: ks') w)) (k :: k2 :: ks') f
        = writeKey (mkContainer k) k (chainNode (k2 :: ks') (f w))
    rw [setPath, readKey_writeKey_self _ _ _ (isContainer_mk k), orContainer_of_container hC,
      writeKey_writeKey_self, setPath_chain_update k2 ks' w f]

theorem setPath_root_update (k : Key) (ks : List Key) (w : JSVal) (f : JSVal → JSVal) :
    setPath (writeKey (.jobj []) k (chainNode ks w)) (k :: ks) f
      = writeKey (.jobj []) k (chainNode ks (f w)) := by
  have hroot : isContainer (.jobj ([] : List (List Char × JSVal))) = true := rfl
  cases ks with
  | nil =>
    simp [setPath, readKey_writeKey_self _ _ _ hroot, writeKey_writeKey_self, chainNode]
  | cons k2 ks' =>
    have hC : isContainer (chainNode (k2 :: ks') w) = true := chainNode_cons_isContainer k2 ks' w
    simp only [setPath, readKey_writeKey_self _ _ _ hroot, orContainer_of_container hC,
      writeKey_writeKey_self]
    rw [setPath_chain_update k2 ks' w f]

theorem getPath_chainNode : ∀ (ks : List Key) (w : JSVal), getPath (chainNode ks w) ks = w
  | [], w => rfl
  | k :: ks', w => by
    simp only [chainNode, getPath, readKey_writeKey_self _ _ _ (isContainer_mk k)]
    exact getPath_chainNode ks' w

theorem getPath_root_chain (k : Key) (ks : List Key) (w : JSVal) :
    getPath (writeKey (.jobj []) k (chainNode ks w)) (k :: ks) = w := by
  have hroot : isContainer (.jobj ([] : List (List Char × JSVal))) = true := rfl
  simp only [getPath, readKey_writeKey_self _ _ _ hroot]
  exact getPath_chainNode ks w

/-- Folding entries that all carry the same key over a chain-shaped
record keeps the chain shape and folds the merges at the leaf. -/
theorem foldl_same_key_chain (key : List Char) (k : Key) (ks : List Key)
    (hp : getPaths key = k :: ks) :
    ∀ (vs : List RawVal) (acc : JSVal),
      (vs.map (fun v => (key, v))).foldl toRecordStep (writeKey (.jobj []) k (chainNode ks acc))
        = writeKey (.jobj []) k
            (chainNode ks (vs.foldl (fun a v => merge a (coerce v)) acc))
  | [], acc => rfl
  | v :: vs', acc => by
    simp only [List.map_cons, List.foldl_cons]
    rw [show toRecordStep (writeKey (.jobj []) k (chainNode ks acc)) (key, v)
          = setPath (writeKey (.jobj []) k (chainNode ks acc)) (getPaths key)
              (fun prev => merge prev (coerce v)) from rfl,
      hp, setPath_root_update]
    exact foldl_same_key_chain key k ks hp vs' (merge acc (coerce v))

/-- Reading back a record built from same-key entries yields the fold
of the merge callback over the coerced values. -/
theorem getPath_toRecord_same_key (key : List Char) (k : Key) (ks : List Key)
    (hp : getPaths key = k :: ks) (v : RawVal) (vs : List RawVal) :
    getPath (toRecord ((v :: vs).map (fun u => (key, u)))) (getPaths key)
      = vs.foldl (fun a u => merge a (coerce u)) (merge .undef (coerce v)) := by
  unfold toRecord
  simp only [List.map_cons, List.foldl_cons]
  rw [show toRecordStep (.jobj []) (key, v)
        = setPath (.jobj []) (getPaths key) (fun prev => merge prev (coerce v)) from rfl,
    hp, setPath_root_fresh, foldl_same_key_chain key k ks hp vs _, getPath_root_chain]

/-! ## Splitting, joining and the regex model -/

theorem splitDot_ne_nil : ∀ s, splitDot s ≠ []
  | [] => by simp [splitDot]
  | c :: rest => by
    by_cases h : c = '.'
    · simp [splitDot, h]
    · simp only [splitDot, h, if_false]
      cases hs : splitDot rest with
      | nil => exact absurd hs (splitDot_ne_nil rest)
      | cons t ts => simp

theorem dotJoin_cons_cons (t t2 : List Char) (ts : List (List Char)) :
    dotJoin (t :: t2 :: ts) = t ++ '.' :: dotJoin (t2 :: ts) := rfl

theorem dotJoin_splitDot : ∀ s, dotJoin (splitDot s) = s
  | [] => rfl
  | c :: rest => by
    by_cases h : c = '.'
    · subst h
      simp only [splitDot, if_true]
      cases hs : splitDot rest with
      | nil => exact absurd hs (splitDot_ne_nil rest)
      | cons t ts =>
        have := dotJoin_splitDot rest
        rw [hs] at this
        simp [dotJoin_cons_cons, this.symm, hs]
    · simp only [splitDot, h, if_false]
      cases hs : splitDot rest with
      | nil => exact absurd hs (splitDot_ne_nil rest)
      | cons t ts =>
        have := dotJoin_splitDot rest
        rw [hs] at this
        cases ts with
        | nil => simpa [dotJoin] using congrArg (c :: ·) this
        | cons t2 ts' => simpa [dotJoin_cons_cons] using congrArg (c :: ·) this

theorem takeWhile_append_of_all {p : Char → Bool} :
    ∀ (l1 l2 : List Char), l1.all p = true →
      (l1 ++ l2).takeWhile p = l1 ++ l2.takeWhile p
  | [], l2, _ => rfl
  | c :: r, l2, h => by
    simp only [List.all_cons, Bool.and_eq_true] at h
    simp [List.takeWhile_cons, h.1, takeWhile_append_of_all r l2 h.2]

theorem dropWhile_append_of_all {p : Char → Bool} :
    ∀ (l1 l2 : List Char), l1.all p = true →
      (l1 ++ l2).dropWhile p = l2.dropWhile p
  | [], l2, _ => rfl
  | c :: r, l2, h => by
    simp only [List.all_cons, Bool.and_eq_true] at h
    simp [List.dropWhile_cons, h.1, dropWhile_append_of_all r l2 h.2]

theorem no_bracket_of_all_word {tok : List Char} (h : tok.all isWordChar = true) :
    '[' ∉ tok := by
  intro hmem
  have := List.all_eq_true.mp h '[' hmem
  simp [isWordChar] at this

theorem matchAt_none_of_no_bracket {s : List Char} (h : '[' ∉ s) : matchAt s = none := by
  unfold matchAt
  split
  · rename_i rest heq
    exfalso
    have hmem : '[' ∈ s.dropWhile isWordChar := by
      rw [heq]; exact List.mem_cons_self _ _
    exact h ((List.dropWhile_sublist (p := isWordChar) (l := s)).mem hmem)
  · rfl

theorem execPattern_none_of_no_bracket : ∀ {s : List Char}, '[' ∉ s → execPattern s = none
  | [], _ => rfl
  | c :: rest, h => by
    have h1 : '[' ∉ c :: rest := h
    have h2 : '[' ∉ rest := fun hm => h (List.mem_cons_of_mem c hm)
    simp [execPattern, matchAt_none_of_no_bracket h1,
      execPattern_none_of_no_bracket h2]

theorem parseToken_of_all_word {tok : List Char} (h : tok.all isWordChar = true) :
    parseToken tok = [.field tok] := by
  simp [parseToken, execPattern_none_of_no_bracket (no_bracket_of_all_word h)]

theorem matchAt_bracket (f d rest2 : List Char) (hf : f.all isWordChar = true)
    (hd : d.all isDigit09 = true) (hne : d ≠ []) :
    matchAt (f ++ '[' :: (d ++ ']' :: rest2)) = some (f, d) := by
  have hwb : isWordChar '[' = false := by decide
  have hdb : isDigit09 ']' = false := by decide
  obtain ⟨c, d', rfl⟩ : ∃ c d', d = c :: d' := by
    cases d with
    | nil => exact absurd rfl hne
    | cons c d' => exact ⟨c, d', rfl⟩
  simp only [List.all_cons, Bool.and_eq_true] at hd
  have h1 : (d' ++ ']' :: rest2).takeWhile isDigit09 = d' := by
    simp [takeWhile_append_of_all d' _ hd.2, List.takeWhile_cons, hdb]
  have h2 : (d' ++ ']' :: rest2).dropWhile isDigit09 = ']' :: rest2 := by
    simp [dropWhile_append_of_all d' _ hd.2, List.dropWhile_cons, hdb]
  unfold matchAt
  rw [dropWhile_append_of_all f _ hf, takeWhile_append_of_all f _ hf]
  simp [List.dropWhile_cons, hwb, List.takeWhile_cons, hd.1, h1, h2]

theorem execPattern_bracket (f d rest2 : List Char) (hf : f.all isWordChar = true)
    (hd : d.all isDigit09 = true) (hne : d ≠ []) :
    execPattern (f ++ '[' :: (d ++ ']' :: rest2)) = some (f, d) := by
  have hm := matchAt_bracket f d rest2 hf hd hne
  cases hfc : f ++ '[' :: (d ++ ']' :: rest2) with
  | nil => simp at hfc
  | cons c cs =>
    rw [hfc] at hm
    simp [execPattern, hm]

theorem parseToken_bracket (f d : List Char) (hf : f.all isWordChar = true)
    (hd : d.all isDigit09 = true) (hne : d ≠ []) :
    parseToken (f ++ '[' :: (d ++ [']'])) =
      if f = [] then [.idx (charsToNat d)] else [.field f, .idx (charsToNat d)] := by
  have := execPattern_bracket f d [] hf hd hne
  simp only [parseToken, this]

/-- Destructured form of a canonical bracket token. -/
theorem canonBracketB_decomp {first : Bool} {tok : List Char}
    (h : canonBracketB first tok = true) :
    ∃ f d, tok = f ++ '[' :: (d ++ [']']) ∧ f.all isWordChar = true
      ∧ d.all isDigit09 = true ∧ d ≠ [] ∧ d = natToChars (charsToNat d)
      ∧ (first = true ∨ f ≠ []) := by
  unfold canonBracketB at h
  split at h
  · rename_i rest heq
    simp only [Bool.and_eq_true, Bool.not_eq_true', List.isEmpty_eq_false,
      decide_eq_true_eq, Bool.or_eq_true, List.isEmpty_iff] at h
    refine ⟨tok.takeWhile isWordChar, rest.takeWhile isDigit09, ?_, ?_, ?_, ?_, ?_, ?_⟩
    · conv_lhs => rw [← List.takeWhile_append_dropWhile (p := isWordChar) (l := tok)]
      rw [heq]
      congr 1
      conv_lhs => rw [← List.takeWhile_append_dropWhile (p := isDigit09) (l := rest)]
      rw [h.1.1.1.2]
    · exact List.all_eq_true.mpr fun c hc => List.mem_takeWhile_imp hc
    · exact List.all_eq_true.mpr fun c hc => List.mem_takeWhile_imp hc
    · exact h.1.1.1.1
    · exact h.1.1.2
    · rcases h.2 with h2 | h2
      · exact Or.inl h2
      · exact Or.inr h2
  · exact absurd h (by simp)

/-- A non-empty accumulator stays non-empty through `formatStep`. -/
theorem formatStep_ne_nil (name : List Char) (k : Key) (h : name ≠ []) :
    formatStep name k ≠ [] := by
  cases k with
  | idx n => simp [formatStep]
  | field s =>
    cases s with
    | nil => simpa [formatStep] using h
    | cons a r => simp [formatStep, h]

/-- Folding `formatStep` over the segments of canonical non-first
tokens appends `"." ++ token` for each token. -/
theorem format_fold_tokens : ∀ (toks : List (List Char)) (name : List Char), name ≠ [] →
    toks.all (canonTokenB false) = true →
    ((toks.map parseToken).flatten).foldl formatStep name
      = name ++ (if toks = [] then [] else '.' :: dotJoin toks)
  | [], name, _, _ => by simp
  | tok :: rest, name, hn, hall => by
    simp only [List.all_cons, Bool.and_eq_true] at hall
    obtain ⟨htok, hrest⟩ := hall
    simp only [List.map_cons, List.flatten_cons, List.foldl_append]
    have hstep : ∃ acc, (parseToken tok).foldl formatStep name = acc ∧ acc = name ++ '.' :: tok := by
      rcases (by simpa [canonTokenB, Bool.and_eq_true, Bool.not_eq_true',
          List.isEmpty_eq_false] using htok :
          (tok ≠ [] ∧ tok.all isWordChar = true) ∨ canonBracketB false tok = true) with hb | hb
      · rw [parseToken_of_all_word hb.2]
        refine ⟨_, rfl, ?_⟩
        simp [formatStep, hn, hb.1]
      · obtain ⟨f, d, hdecomp, hfw, hdd, hdne, hcanon, hfne⟩ := canonBracketB_decomp hb
        have hf : f ≠ [] := by
          rcases hfne with hf | hf
          · exact absurd hf (by simp)
          · exact hf
        rw [hdecomp, parseToken_bracket f d hfw hdd hdne, if_neg hf]
        refine ⟨_, rfl, ?_⟩
        simp only [List.foldl_cons, List.foldl_nil]
        rw [show formatStep name (.field f) = name ++ '.' :: f by
          simp [formatStep, hn, hf]]
        simp [formatStep, ← hcanon]
    obtain ⟨acc, hacc, rfl⟩ := hstep
    rw [hacc, format_fold_tokens rest (name ++ '.' :: tok) (by simp) hrest]
    cases rest with
    | nil => simp [dotJoin]
    | cons t2 ts => simp [dotJoin_cons_cons]

/-! ## Sorted property lists -/

theorem insProp_comm (x y : List Char × JSVal) (h : x.1 ≠ y.1) :
    ∀ l, insProp x (insProp y l) = insProp y (insProp x l)
  | [] => by
    rcases lt_or_gt_of_ne h with hxy | hxy
    · simp [insProp, hxy, asymm hxy]
    · simp [insProp, hxy, asymm hxy]
  | q :: qs => by
    by_cases hx : x.1 < q.1 <;> by_cases hy : y.1 < q.1
    · rcases lt_or_gt_of_ne h with hxy | hxy
      · simp [insProp, hx, hy, hxy, asymm hxy]
      · simp [insProp, hx, hy, hxy, asymm hxy]
    · have hxy : x.1 < y.1 := lt_of_lt_of_le hx (le_of_not_lt hy)
      simp [insProp, hx, hy, hxy, asymm hxy]
    · have hyx : y.1 < x.1 := lt_of_lt_of_le hy (le_of_not_lt hx)
      simp [insProp, hx, hy, hyx, asymm hyx]
    · simp [insProp, hx, hy, insProp_comm x y h qs]

theorem sortProps_cons (x : List Char × JSVal) (Q : List (List Char × JSVal)) :
    sortProps (x :: Q) = insProp x (sortProps Q) := rfl

theorem foldr_insProp_acc (x : List Char × JSVal) :
    ∀ (Q : List (List Char × JSVal)), (∀ y ∈ Q, y.1 ≠ x.1) → ∀ acc,
      Q.foldr insProp (insProp x acc) = insProp x (Q.foldr insProp acc)
  | [], _, acc => rfl
  | y :: Q', h, acc => by
    simp only [List.foldr_cons]
    rw [foldr_insProp_acc x Q' (fun z hz => h z (List.mem_cons_of_mem y hz)) acc,
      insProp_comm y x (h y (List.mem_cons_self _ _))]

theorem notMem_keys_of_not_contains {Q : List (List Char × JSVal)} {a : List Char}
    (h : containsKey a Q = false) : ∀ y ∈ Q, y.1 ≠ a := by
  induction Q with
  | nil => intro y hy; simp at hy
  | cons q rest ih =>
    simp only [containsKey, Bool.or_eq_false_iff, decide_eq_false_iff_not] at h
    intro y hy
    rcases List.mem_cons.mp hy with rfl | hy
    · exact fun hk => h.1 hk.symm
    · exact ih h.2 y hy

theorem sortProps_append_single (Q : List (List Char × JSVal)) (a : List Char) (w : JSVal)
    (h : ∀ y ∈ Q, y.1 ≠ a) :
    sortProps (Q ++ [(a, w)]) = insProp (a, w) (sortProps Q) := by
  unfold sortProps
  rw [List.foldr_append]
  exact foldr_insProp_acc (a, w) Q h []

theorem sortProps_append_pair (Q : List (List Char × JSVal)) (u w : List Char × JSVal) :
    sortProps (Q ++ [u, w]) = Q.foldr insProp (insProp u (insProp w [])) := by
  unfold sortProps
  rw [List.foldr_append]
  rfl

theorem containsKey_insProp (k : List Char) (x : List Char × JSVal) :
    ∀ S, containsKey k (insProp x S) = ((k = x.1 : Bool) || containsKey k S)
  | [] => by simp [insProp, containsKey]
  | q :: qs => by
    by_cases hx : x.1 < q.1
    · simp [insProp, hx, containsKey]
    · simp only [insProp, hx, if_false, containsKey, containsKey_insProp k x qs]
      cases hkq : (k = q.1 : Bool) <;> cases hkx : (k = x.1 : Bool) <;> simp_all

theorem containsKey_sortProps (k : List Char) :
    ∀ Q, containsKey k (sortProps Q) = containsKey k Q
  | [] => rfl
  | q :: qs => by
    rw [sortProps_cons, containsKey_insProp, containsKey_sortProps k qs]
    simp [containsKey]

theorem mem_insProp (y x : List Char × JSVal) :
    ∀ S, y ∈ insProp x S ↔ y = x ∨ y ∈ S
  | [] => by simp [insProp]
  | q :: qs => by
    by_cases hx : x.1 < q.1
    · simp [insProp, hx]
    · simp [insProp, hx, mem_insProp y x qs]
      tauto

theorem mem_sortProps (y : List Char × JSVal) : ∀ Q, y ∈ sortProps Q ↔ y ∈ Q
  | [] => Iff.rfl
  | q :: qs => by
    rw [sortProps_cons, mem_insProp]
    simp [mem_sortProps y qs]

theorem lookupProp_insProp_self (x : List Char × JSVal) :
    ∀ S, (∀ y ∈ S, y.1 ≠ x.1) → lookupProp x.1 (insProp x S) = x.2
  | [], _ => by simp [insProp, lookupProp]
  | q :: qs, h => by
    by_cases hx : x.1 < q.1
    · simp [insProp, hx, lookupProp]
    · have hq : x.1 ≠ q.1 := fun hk => h q (List.mem_cons_self _ _) hk.symm
      simp [insProp, hx, lookupProp, hq,
        lookupProp_insProp_self x qs (fun y hy => h y (List.mem_cons_of_mem q hy))]

theorem lookupProp_insProp_other (k : List Char) (x : List Char × JSVal) (h : k ≠ x.1) :
    ∀ S, lookupProp k (insProp x S) = lookupProp k S
  | [] => by simp [insProp, lookupProp, h]
  | q :: qs => by
    by_cases hx : x.1 < q.1
    · simp [insProp, hx, lookupProp, h]
    · simp [insProp, hx, lookupProp, lookupProp_insProp_other k x h qs]

theorem lookupProp_sortProps (k : List Char) (Q : List (List Char × JSVal))
    (h : (keysOf Q).Nodup) : lookupProp k (sortProps Q) = lookupProp k Q := by
  induction Q with
  | nil => rfl
  | cons q qs ih =>
    obtain ⟨qk, qv⟩ := q
    have h' : qk ∉ keysOf qs ∧ (keysOf qs).Nodup := by
      simpa [keysOf, List.nodup_cons] using h
    rw [sortProps_cons]
    by_cases hk : k = qk
    · subst hk
      have hmem : ∀ y ∈ sortProps qs, y.1 ≠ k := by
        intro y hy hk2
        exact h'.1 (hk2 ▸ (by
          simpa [keysOf] using List.mem_map_of_mem Prod.fst ((mem_sortProps y qs).mp hy)))
      have hlook := lookupProp_insProp_self (k, qv) (sortProps qs) hmem
      simp only [lookupProp, if_pos rfl]
      simpa using hlook
    · simp [lookupProp, hk, lookupProp_insProp_other k (qk, qv) hk (sortProps qs),
        ih h'.2]

/-! ## Commutation of property writes, and canon distribution -/

theorem updateProp_comm (k k2 : List Char) (h : k ≠ k2) (x y : JSVal) :
    ∀ ps, updateProp k x (updateProp k2 y ps) = updateProp k2 y (updateProp k x ps)
  | [] => rfl
  | q :: qs => by
    obtain ⟨qk, qv⟩ := q
    by_cases h1 : k = qk <;> by_cases h2 : k2 = qk
    · exact absurd (h1.trans h2.symm) h
    · simp [updateProp, h1, h2, Ne.symm h]
    · simp [updateProp, h1, h2, h]
    · simp [updateProp, h1, h2, updateProp_comm k k2 h x y qs]

theorem updateProp_append (k : List Char) (v : JSVal) :
    ∀ (Q R : List (List Char × JSVal)),
      updateProp k v (Q ++ R) =
        if containsKey k Q then updateProp k v Q ++ R else Q ++ updateProp k v R
  | [], R => by simp [containsKey]
  | q :: qs, R => by
    obtain ⟨qk, qv⟩ := q
    by_cases h1 : k = qk
    · simp [updateProp, containsKey, h1]
    · simp only [List.cons_append, updateProp, h1, if_neg h1, containsKey]
      by_cases h2 : containsKey k qs = true <;>
        simp [h1, h2, updateProp_append k v qs R]

theorem containsKey_append (k : List Char) :
    ∀ (Q R : List (List Char × JSVal)),
      containsKey k (Q ++ R) = (containsKey k Q || containsKey k R)
  | [], R => by simp [containsKey]
  | q :: qs, R => by
    simp [containsKey, containsKey_append k qs R, Bool.or_assoc]

theorem padSet_comm (x y : JSVal) :
    ∀ (es : List JSVal) (n m : Nat), n ≠ m →
      padSet (padSet es n x) m y = padSet (padSet es m y) n x
  | es, 0, 0, h => absurd rfl h
  | es, 0, m + 1, _ => by cases es <;> simp [padSet]
  | es, n + 1, 0, _ => by cases es <;> simp [padSet]
  | es, n + 1, m + 1, h => by
    cases es with
    | nil => simp [padSet, padSet_comm x y [] n m (by omega)]
    | cons e rest => simp [padSet, padSet_comm x y rest n m (by omega)]

theorem canonProps_cons (k : List Char) (v : JSVal) (ps : List (List Char × JSVal)) :
    canonProps ((k, v) :: ps) = (k, canon v) :: canonProps ps := rfl

theorem canonList_cons (v : JSVal) (es : List JSVal) :
    canonList (v :: es) = canon v :: canonList es := rfl

theorem canonProps_append :
    ∀ (ps qs : List (List Char × JSVal)),
      canonProps (ps ++ qs) = canonProps ps ++ canonProps qs
  | [], qs => rfl
  | (k, v) :: ps, qs => by
    simp [canonProps_cons, canonProps_append ps qs]

theorem canonList_append : ∀ (es fs : List JSVal),
    canonList (es ++ fs) = canonList es ++ canonList fs
  | [], fs => rfl
  | v :: es, fs => by simp [canonList_cons, canonList_append es fs]

theorem canonProps_nil : canonProps [] = [] := rfl

theorem canonList_nil : canonList [] = [] := rfl

theorem keysOf_canonProps : ∀ ps, keysOf (canonProps ps) = keysOf ps
  | [] => rfl
  | (k, v) :: ps => by
    simp only [canonProps_cons, keysOf, List.map_cons]
    exact congrArg (k :: ·) (by simpa [keysOf] using keysOf_canonProps ps)

theorem keysOf_updateProp (k : List Char) (v : JSVal) :
    ∀ ps, keysOf (updateProp k v ps) = keysOf ps
  | [] => rfl
  | (qk, qv) :: qs => by
    by_cases h : k = qk
    · simp [updateProp, h, keysOf]
    · simp only [updateProp, if_neg h, keysOf, List.map_cons]
      exact congrArg (qk :: ·) (by simpa [keysOf] using keysOf_updateProp k v qs)

theorem containsKey_canonProps (k : List Char) :
    ∀ ps, containsKey k (canonProps ps) = containsKey k ps
  | [] => rfl
  | (qk, qv) :: qs => by
    simp [canonProps_cons, containsKey, containsKey_canonProps k qs]

theorem updateProp_canonProps (k : List Char) (v : JSVal) :
    ∀ ps, canonProps (updateProp k v ps) = updateProp k (canon v) (canonProps ps)
  | [] => rfl
  | (qk, qv) :: qs => by
    by_cases h : k = qk <;>
      simp [updateProp, canonProps_cons, h, updateProp_canonProps k v qs]

theorem canonProps_setProp (ps : List (List Char × JSVal)) (k : List Char) (v : JSVal) :
    canonProps (setProp ps k v) = setProp (canonProps ps) k (canon v) := by
  by_cases h : containsKey k ps = true
  · simp [setProp, h, containsKey_canonProps, updateProp_canonProps]
  · simp only [Bool.not_eq_true] at h
    simp [setProp, h, containsKey_canonProps, canonProps_append, canonProps_cons,
      canonProps_nil]

theorem canonList_padSet (v : JSVal) :
    ∀ (es : List JSVal) (n : Nat),
      canonList (padSet es n v) = padSet (canonList es) n (canon v)
  | [], 0 => rfl
  | [], n + 1 => by
    simp [padSet, canonList_cons, canonList_padSet v [] n, canonList_nil, canon]
  | e :: es, 0 => rfl
  | e :: es, n + 1 => by simp [padSet, canonList_cons, canonList_padSet v es n]

theorem elemAt_canonList : ∀ (es : List JSVal) (n : Nat),
    elemAt (canonList es) n = canon (elemAt es n)
  | [], n => by cases n <;> simp [canonList, elemAt, canon]
  | e :: es, 0 => rfl
  | e :: es, n + 1 => by simp [canonList_cons, elemAt, elemAt_canonList es n]

theorem lookupProp_canonProps (k : List Char) :
    ∀ ps, lookupProp k (canonProps ps) = canon (lookupProp k ps)
  | [] => by simp [canonProps, lookupProp, canon]
  | (qk, qv) :: qs => by
    by_cases h : k = qk <;>
      simp [canonProps_cons, lookupProp, h, lookupProp_canonProps k qs]

theorem updateProp_insProp_self (xk : List Char) (xv w : JSVal) :
    ∀ S, (∀ y ∈ S, y.1 ≠ xk) →
      updateProp xk w (insProp (xk, xv) S) = insProp (xk, w) S
  | [], _ => by simp [insProp, updateProp]
  | (qk, qv) :: qs, h => by
    by_cases hx : xk < qk
    · simp [insProp, hx, updateProp]
    · have hq : xk ≠ qk := fun hk => h (qk, qv) (List.mem_cons_self _ _) hk.symm
      simp [insProp, hx, updateProp, hq,
        updateProp_insProp_self xk xv w qs (fun y hy => h y (List.mem_cons_of_mem _ hy))]

theorem updateProp_insProp_other (k : List Char) (w : JSVal) (x : List Char × JSVal)
    (h : k ≠ x.1) : ∀ S, updateProp k w (insProp x S) = insProp x (updateProp k w S)
  | [] => by
    obtain ⟨xk, xv⟩ := x
    simp only [] at h
    simp [insProp, updateProp, h]
  | (qk, qv) :: qs => by
    obtain ⟨xk, xv⟩ := x
    simp only [] at h
    by_cases hx : xk < qk
    · by_cases hk : k = qk
      · subst hk
        simp [insProp, updateProp, hx, h]
      · simp [insProp, updateProp, hx, hk, h]
    · by_cases hk : k = qk
      · subst hk
        simp [insProp, updateProp, hx, h]
      · simp [insProp, updateProp, hx, hk, h,
          updateProp_insProp_other k w (xk, xv) h qs]

theorem sortProps_updateProp (a : List Char) (w : JSVal) :
    ∀ Q, (keysOf Q).Nodup →
      sortProps (updateProp a w Q) = updateProp a w (sortProps Q)
  | [], _ => rfl
  | (qk, qv) :: qs, h => by
    have h' : qk ∉ keysOf qs ∧ (keysOf qs).Nodup := by
      simpa [keysOf, List.nodup_cons] using h
    by_cases ha : a = qk
    · subst ha
      have hmem : ∀ y ∈ sortProps qs, y.1 ≠ a := by
        intro y hy hk2
        exact h'.1 (hk2 ▸ (by
          simpa [keysOf] using List.mem_map_of_mem Prod.fst ((mem_sortProps y qs).mp hy)))
      simp only [updateProp, if_pos rfl, sortProps_cons]
      exact (updateProp_insProp_self a qv w (sortProps qs) hmem).symm
    · rw [show updateProp a w ((qk, qv) :: qs) = (qk, qv) :: updateProp a w qs by
        simp [updateProp, ha]]
      rw [sortProps_cons, sortProps_updateProp a w qs h'.2, sortProps_cons]
      exact (updateProp_insProp_other a w (qk, qv) ha (sortProps qs)).symm

theorem canon_jobj (ps : List (List Char × JSVal)) :
    canon (.jobj ps) = .jobj (sortProps (canonProps ps)) := rfl

theorem canon_jarr (es : List JSVal) (ps : List (List Char × JSVal)) :
    canon (.jarr es ps) = .jarr (canonList es) (sortProps (canonProps ps)) := rfl

theorem sortProps_setProp_congr {Q1 Q2 : List (List Char × JSVal)}
    (h1 : (keysOf Q1).Nodup) (h2 : (keysOf Q2).Nodup)
    (heq : sortProps Q1 = sortProps Q2) (a : List Char) (w : JSVal) :
    sortProps (setProp Q1 a w) = sortProps (setProp Q2 a w) := by
  have hc : containsKey a Q1 = containsKey a Q2 := by
    rw [← containsKey_sortProps, heq, containsKey_sortProps]
  by_cases hca : containsKey a Q1 = true
  · rw [setProp, setProp, if_pos hca, if_pos (hc ▸ hca),
      sortProps_updateProp a w Q1 h1, sortProps_updateProp a w Q2 h2, heq]
  · have hca1 : containsKey a Q1 = false := by simpa using hca
    have hca2 : containsKey a Q2 = false := by rw [← hc]; exact hca1
    rw [setProp, setProp, if_neg (by simp [hca1]), if_neg (by simp [hca2]),
      sortProps_append_single Q1 a w (notMem_keys_of_not_contains hca1),
      sortProps_append_single Q2 a w (notMem_keys_of_not_contains hca2), heq]

theorem sortProps_setProp_comm (Q : List (List Char × JSVal)) (a b : List Char)
    (h : a ≠ b) (x y : JSVal) :
    sortProps (setProp (setProp Q a x) b y) = sortProps (setProp (setProp Q b y) a x) := by
  by_cases hca : containsKey a Q = true <;> by_cases hcb : containsKey b Q = true
  · have e1 : setProp Q a x = updateProp a x Q := by rw [setProp, if_pos hca]
    have e2 : setProp Q b y = updateProp b y Q := by rw [setProp, if_pos hcb]
    have e3 : setProp (updateProp a x Q) b y = updateProp b y (updateProp a x Q) := by
      rw [setProp, if_pos (by rw [containsKey_updateProp]; exact hcb)]
    have e4 : setProp (updateProp b y Q) a x = updateProp a x (updateProp b y Q) := by
      rw [setProp, if_pos (by rw [containsKey_updateProp]; exact hca)]
    rw [e1, e3, e2, e4, updateProp_comm b a (Ne.symm h)]
  · have hcb' : containsKey b Q = false := by simpa using hcb
    have e1 : setProp Q a x = updateProp a x Q := by rw [setProp, if_pos hca]
    have e3 : setProp (updateProp a x Q) b y = updateProp a x Q ++ [(b, y)] := by
      rw [setProp, if_neg (by rw [containsKey_updateProp]; simp [hcb'])]
    have e2 : setProp Q b y = Q ++ [(b, y)] := by
      rw [setProp, if_neg (by simp [hcb'])]
    have e4 : setProp (Q ++ [(b, y)]) a x = updateProp a x (Q ++ [(b, y)]) := by
      rw [setProp, if_pos (by rw [containsKey_append]; simp [hca])]
    rw [e1, e3, e2, e4, updateProp_append, if_pos hca]
  · have hca' : containsKey a Q = false := by simpa using hca
    have e1 : setProp Q a x = Q ++ [(a, x)] := by
      rw [setProp, if_neg (by simp [hca'])]
    have e3 : setProp (Q ++ [(a, x)]) b y = updateProp b y (Q ++ [(a, x)]) := by
      rw [setProp, if_pos (by rw [containsKey_append]; simp [hcb])]
    have e2 : setProp Q b y = updateProp b y Q := by rw [setProp, if_pos hcb]
    have e4 : setProp (updateProp b y Q) a x = updateProp b y Q ++ [(a, x)] := by
      rw [setProp, if_neg (by rw [containsKey_updateProp]; simp [hca'])]
    rw [e1, e3, e2, e4, updateProp_append, if_pos hcb]
  · have hca' : containsKey a Q = false := by simpa using hca
    have hcb' : containsKey b Q = false := by simpa using hcb
    have e1 : setProp Q a x = Q ++ [(a, x)] := by
      rw [setProp, if_neg (by simp [hca'])]
    have e3 : setProp (Q ++ [(a, x)]) b y = (Q ++ [(a, x)]) ++ [(b, y)] := by
      rw [setProp, if_neg (by
        rw [containsKey_append]
        simp [hcb', containsKey, Ne.symm h])]
    have e2 : setProp Q b y = Q ++ [(b, y)] := by
      rw [setProp, if_neg (by simp [hcb'])]
    have e4 : setProp (Q ++ [(b, y)]) a x = (Q ++ [(b, y)]) ++ [(a, x)] := by
      rw [setProp, if_neg (by
        rw [containsKey_append]
        simp [hca', containsKey, h])]
    rw [e1, e3, e2, e4, List.append_assoc, List.append_assoc]
    rw [show [(a, x)] ++ [(b, y)] = [(a, x), (b, y)] from rfl,
      show [(b, y)] ++ [(a, x)] = [(b, y), (a, x)] from rfl,
      sortProps_append_pair, sortProps_append_pair,
      insProp_comm (a, x) (b, y) h []]

theorem canon_writeKey_value_congr (t : JSVal) (k : Key) {v1 v2 : JSVal}
    (h : canon v1 = canon v2) : canon (writeKey t k v1) = canon (writeKey t k v2) := by
  cases t with
  | jobj ps => simp only [writeKey, canon_jobj, canonProps_setProp, h]
  | jarr es ps =>
    cases k with
    | idx n => simp only [writeKey, canon_jarr, canonList_padSet, h]
    | field s2 => simp only [writeKey, canon_jarr, canonProps_setProp, h]
  | undef => rfl
  | jnull => rfl
  | jbool b => rfl
  | jnum n => rfl
  | jstr s => rfl
  | jfile n sz => rfl

theorem keyStr_ne_of_sameKind {k k2 : Key} (hk : sameKind k k2 = true) (hne : k ≠ k2) :
    keyStr k ≠ keyStr k2 := by
  cases k with
  | field s =>
    cases k2 with
    | field s2 =>
      intro hs
      exact hne (by simpa [keyStr] using congrArg Key.field hs)
    | idx m => simp [sameKind] at hk
  | idx n =>
    cases k2 with
    | field s2 => simp [sameKind] at hk
    | idx m =>
      intro hs
      exact hne (congrArg Key.idx (natToChars_injective hs))

theorem canon_writeKey_comm (t : JSVal) (k k2 : Key) (x y : JSVal)
    (hk : sameKind k k2 = true) (hne : k ≠ k2) :
    canon (writeKey (writeKey t k x) k2 y) = canon (writeKey (writeKey t k2 y) k x) := by
  have hks : keyStr k ≠ keyStr k2 := keyStr_ne_of_sameKind hk hne
  cases t with
  | jobj ps =>
    simp only [writeKey, canon_jobj, canonProps_setProp]
    rw [sortProps_setProp_comm (canonProps ps) (keyStr k) (keyStr k2) hks]
  | jarr es ps =>
    cases k with
    | idx n =>
      cases k2 with
      | idx m =>
        have hnm : n ≠ m := fun hh => hne (by rw [hh])
        simp only [writeKey, canon_jarr]
        rw [padSet_comm x y es n m hnm]
      | field s2 => simp [sameKind] at hk
    | field s =>
      cases k2 with
      | idx m => simp [sameKind] at hk
      | field s2 =>
        have hss : s ≠ s2 := by simpa [keyStr] using hks
        simp only [writeKey, canon_jarr, canonProps_setProp]
        rw [sortProps_setProp_comm (canonProps ps) s s2 hss]
  | undef => rfl
  | jnull => rfl
  | jbool b => rfl
  | jnum n => rfl
  | jstr s => rfl
  | jfile n sz => rfl

/-! ## The swap lemma for compatible paths -/

theorem writeKey_scalar {t : JSVal} (h : isContainer t = false) (k : Key) (v : JSVal) :
    writeKey t k v = t := by
  cases t <;> simp_all [writeKey, isContainer]

theorem nullish_writeKey {t : JSVal} (h : nullish t = false) (k : Key) (v : JSVal) :
    nullish (writeKey t k v) = false := by
  cases t <;> cases k <;> simp_all [writeKey, nullish]

theorem nullish_orContainer (r : JSVal) (c : Key) : nullish (orContainer r c) = false := by
  by_cases h : nullish r = true
  · rw [orContainer, if_pos h]
    cases c <;> rfl
  · simp only [Bool.not_eq_true] at h
    rw [orContainer, if_neg (by simp [h])]
    exact h

theorem orContainer_of_not_nullish {v : JSVal} (h : nullish v = false) (k : Key) :
    orContainer v k = v := by
  simp [orContainer, h]

theorem nullish_setPath_cons {u : JSVal} (h : nullish u = false) (k : Key)
    (rest : List Key) (f : JSVal → JSVal) :
    nullish (setPath u (k :: rest) f) = false := by
  cases rest with
  | nil => exact nullish_writeKey h k _
  | cons k2 r => exact nullish_writeKey h k _

theorem mkContainer_eq_of_sameKind {c d : Key} (h : sameKind c d = true) :
    mkContainer c = mkContainer d := by
  cases c <;> cases d <;> simp_all [sameKind, mkContainer]

theorem setPath_cons_payload (t : JSVal) (a : Key) (p' : List Key) (f : JSVal → JSVal) :
    ∃ v, ∀ t2 : JSVal, readKey t2 a = readKey t a → setPath t2 (a :: p') f = writeKey t2 a v := by
  cases p' with
  | nil => exact ⟨f (readKey t a), fun t2 h2 => by simp [setPath, h2]⟩
  | cons c p'' =>
    exact ⟨setPath (orContainer (readKey t a) c) (c :: p'') f, fun t2 h2 => by
      simp [setPath, h2]⟩

theorem setPath_swap : ∀ (p q : List Key) (t : JSVal) (f g : JSVal → JSVal),
    compatB p q = true → p ≠ q →
    canon (setPath (setPath t p f) q g) = canon (setPath (setPath t q g) p f)
  | [], [], _, _, _, _, hne => absurd rfl hne
  | [], _ :: _, _, _, _, hc, _ => by simp [compatB] at hc
  | _ :: _, [], _, _, _, hc, _ => by simp [compatB] at hc
  | a :: p', b :: q', t, f, g, hc, hne => by
    by_cases hab : a = b
    · subst hab
      have hc' : compatB p' q' = true := by simpa [compatB] using hc
      have hne' : p' ≠ q' := fun h => hne (by rw [h])
      obtain ⟨c, p'', rfl⟩ : ∃ c p'', p' = c :: p'' := by
        cases p' with
        | nil =>
          cases q' with
          | nil => exact absurd rfl hne'
          | cons d q'' => simp [compatB] at hc'
        | cons c p'' => exact ⟨c, p'', rfl⟩
      obtain ⟨d, q'', rfl⟩ : ∃ d q'', q' = d :: q'' := by
        cases q' with
        | nil => simp [compatB] at hc'
        | cons d q'' => exact ⟨d, q'', rfl⟩
      by_cases hcont : isContainer t = true
      · have hmk : orContainer (readKey t a) d = orContainer (readKey t a) c := by
          by_cases hnl : nullish (readKey t a) = true
          · simp only [orContainer, hnl, if_true]
            by_cases hcd : c = d
            · rw [hcd]
            · exact mkContainer_eq_of_sameKind (by
                have : sameKind c d = true := by simpa [compatB, hcd] using hc'
                simpa [sameKind] using this.symm ▸ (by
                  cases c <;> cases d <;> simp_all [sameKind]))
          · simp only [Bool.not_eq_true] at hnl
            simp [orContainer, hnl]
        have hnlu : nullish (orContainer (readKey t a) c) = false :=
          nullish_orContainer (readKey t a) c
        have hX : nullish (setPath (orContainer (readKey t a) c) (c :: p'') f) = false :=
          nullish_setPath_cons hnlu c p'' f
        have hY : nullish (setPath (orContainer (readKey t a) c) (d :: q'') g) = false := by
          exact nullish_setPath_cons hnlu d q'' g
        rw [show setPath t (a :: c :: p'') f
            = writeKey t a (setPath (orContainer (readKey t a) c) (c :: p'') f) from rfl]
        rw [show setPath t (a :: d :: q'') g
            = writeKey t a (setPath (orContainer (readKey t a) d) (d :: q'') g) from rfl]
        rw [hmk]
        rw [show setPath
              (writeKey t a (setPath (orContainer (readKey t a) c) (c :: p'') f))
              (a :: d :: q'') g
            = writeKey (writeKey t a (setPath (orContainer (readKey t a) c) (c :: p'') f)) a
                (setPath (orContainer
                  (readKey (writeKey t a
                    (setPath (orContainer (readKey t a) c) (c :: p'') f)) a) d)
                  (d :: q'') g) from rfl]
        rw [readKey_writeKey_self t a _ hcont, orContainer_of_not_nullish hX,
          writeKey_writeKey_self]
        rw [show setPath
              (writeKey t a (setPath (orContainer (readKey t a) c) (d :: q'') g))
              (a :: c :: p'') f
            = writeKey (writeKey t a (setPath (orContainer (readKey t a) c) (d :: q'') g)) a
                (setPath (orContainer
                  (readKey (writeKey t a
                    (setPath (orContainer (readKey t a) c) (d :: q'') g)) a) c)
                  (c :: p'') f) from rfl]
        rw [readKey_writeKey_self t a _ hcont, orContainer_of_not_nullish hY,
          writeKey_writeKey_self]
        exact canon_writeKey_value_congr t a
          (setPath_swap (c :: p'') (d :: q'') (orContainer (readKey t a) c) f g hc' hne')
      · have hcont' : isContainer t = false := by simpa using hcont
        have hp : setPath t (a :: c :: p'') f = t := by
          rw [show setPath t (a :: c :: p'') f
              = writeKey t a (setPath (orContainer (readKey t a) c) (c :: p'') f) from rfl,
            writeKey_scalar hcont']
        have hq : setPath t (a :: d :: q'') g = t := by
          rw [show setPath t (a :: d :: q'') g
              = writeKey t a (setPath (orContainer (readKey t a) d) (d :: q'') g) from rfl,
            writeKey_scalar hcont']
        rw [hp, hq, hp]
    · have hsk : sameKind a b = true := by simpa [compatB, hab] using hc
      have hks : keyStr a ≠ keyStr b := keyStr_ne_of_sameKind hsk hab
      obtain ⟨x, hx⟩ := setPath_cons_payload t a p' f
      obtain ⟨y, hy⟩ := setPath_cons_payload t b q' g
      rw [hx t rfl, hy (writeKey t a x) (readKey_writeKey_other t a b x hks),
        hy t rfl, hx (writeKey t b y) (readKey_writeKey_other t b a y (Ne.symm hks))]
      exact canon_writeKey_comm t a b x y hsk hab

/-! ## Well-formedness is preserved by the record builder -/

theorem wf_lookupProp {ps : List (List Char × JSVal)} (h : ∀ kv ∈ ps, WfJS kv.2)
    (k : List Char) : WfJS (lookupProp k ps) := by
  induction ps with
  | nil => exact WfJS.undef
  | cons q rest ih =>
    obtain ⟨qk, qv⟩ := q
    by_cases hk : k = qk
    · simpa [lookupProp, hk] using h (qk, qv) (List.mem_cons_self _ _)
    · simpa [lookupProp, hk] using ih (fun kv hkv => h kv (List.mem_cons_of_mem _ hkv))

theorem wf_elemAt {es : List JSVal} (h : ∀ v ∈ es, WfJS v) (n : Nat) :
    WfJS (elemAt es n) := by
  induction es generalizing n with
  | nil => exact WfJS.undef
  | cons e rest ih =>
    cases n with
    | zero => exact h e (List.mem_cons_self _ _)
    | succ n => exact ih (fun v hv => h v (List.mem_cons_of_mem _ hv)) n

theorem wf_readKey {t : JSVal} (h : WfJS t) (k : Key) : WfJS (readKey t k) := by
  cases t with
  | jobj ps =>
    cases h with
    | jobj hv hnd => exact wf_lookupProp hv (keyStr k)
  | jarr es ps =>
    cases h with
    | jarr he hv hnd =>
      cases k with
      | idx n => exact wf_elemAt he n
      | field s => exact wf_lookupProp hv s
  | undef => exact WfJS.undef
  | jnull => exact WfJS.undef
  | jbool b => exact WfJS.undef
  | jnum n => exact WfJS.undef
  | jstr s => exact WfJS.undef
  | jfile n sz => exact WfJS.undef

theorem mem_updateProp {kv : List Char × JSVal} {k : List Char} {v : JSVal} :
    ∀ {ps : List (List Char × JSVal)}, kv ∈ updateProp k v ps →
      kv.2 = v ∨ kv ∈ ps := by
  intro ps
  induction ps with
  | nil => intro h; simp [updateProp] at h
  | cons q rest ih =>
    obtain ⟨qk, qv⟩ := q
    by_cases hk : k = qk
    · intro h
      rcases List.mem_cons.mp (by simpa [updateProp, hk] using h) with rfl | hmem
      · exact Or.inl rfl
      · exact Or.inr (List.mem_cons_of_mem _ hmem)
    · intro h
      rcases List.mem_cons.mp (by simpa [updateProp, hk] using h) with rfl | hmem
      · exact Or.inr (List.mem_cons_self _ _)
      · rcases ih hmem with h2 | h2
        · exact Or.inl h2
        · exact Or.inr (List.mem_cons_of_mem _ h2)

theorem mem_padSet {w : JSVal} {v : JSVal} :
    ∀ {es : List JSVal} {n : Nat}, w ∈ padSet es n v →
      w ∈ es ∨ w = v ∨ w = .undef := by
  intro es n
  induction n generalizing es with
  | zero =>
    cases es with
    | nil => intro h; simp [padSet] at h; exact Or.inr (Or.inl h)
    | cons e rest =>
      intro h
      rcases List.mem_cons.mp (by simpa [padSet] using h) with rfl | hmem
      · exact Or.inr (Or.inl rfl)
      · exact Or.inl (List.mem_cons_of_mem _ hmem)
  | succ n ih =>
    cases es with
    | nil =>
      intro h
      rcases List.mem_cons.mp (by simpa [padSet] using h) with rfl | hmem
      · exact Or.inr (Or.inr rfl)
      · rcases ih hmem with h2 | h2
        · simp at h2
        · exact Or.inr h2
    | cons e rest =>
      intro h
      rcases List.mem_cons.mp (by simpa [padSet] using h) with rfl | hmem
      · exact Or.inl (List.mem_cons_self _ _)
      · rcases ih hmem with h2 | h2
        · exact Or.inl (List.mem_cons_of_mem _ h2)
        · exact Or.inr h2

theorem notMem_keysOf_of_not_contains {ps : List (List Char × JSVal)} {k : List Char}
    (h : containsKey k ps = false) : k ∉ keysOf ps := by
  intro hmem
  unfold keysOf at hmem
  obtain ⟨y, hy, hyk⟩ := List.mem_map.mp hmem
  exact notMem_keys_of_not_contains h y hy hyk

theorem wf_writeKey {t v : JSVal} (ht : WfJS t) (hv : WfJS v) (k : Key) :
    WfJS (writeKey t k v) := by
  cases t with
  | jobj ps =>
    cases ht with
    | jobj hvals hnd =>
      refine WfJS.jobj ?_ ?_
      · intro kv hkv
        by_cases hc : containsKey (keyStr k) ps = true
        · rcases mem_updateProp (by simpa [writeKey, setProp, hc] using hkv) with h2 | h2
          · exact h2 ▸ hv
          · exact hvals kv h2
        · have hc' : containsKey (keyStr k) ps = false := by simpa using hc
          rcases (by simpa [writeKey, setProp, hc'] using hkv :
              kv ∈ ps ∨ kv = (keyStr k, v)) with h2 | h2
          · exact hvals kv h2
          · rw [h2]
            exact hv
      · by_cases hc : containsKey (keyStr k) ps = true
        · simpa [setProp, hc, keysOf_updateProp] using hnd
        · have hc' : containsKey (keyStr k) ps = false := by simpa using hc
          have : keysOf (ps ++ [(keyStr k, v)]) = keysOf ps ++ [keyStr k] := by
            simp [keysOf]
          simp only [setProp, hc', Bool.false_eq_true, if_false, this]
          simp [List.nodup_append, hnd, notMem_keysOf_of_not_contains hc']
  | jarr es ps =>
    cases ht with
    | jarr he hvals hnd =>
      cases k with
      | idx n =>
        refine WfJS.jarr ?_ hvals hnd
        intro w hw
        rcases mem_padSet (by simpa [writeKey] using hw) with h2 | h2 | h2
        · exact he w h2
        · exact h2 ▸ hv
        · exact h2 ▸ WfJS.undef
      | field s =>
        refine WfJS.jarr he ?_ ?_
        · intro kv hkv
          by_cases hc : containsKey s ps = true
          · rcases mem_updateProp (by simpa [writeKey, setProp, hc] using hkv) with h2 | h2
            · exact h2 ▸ hv
            · exact hvals kv h2
          · have hc' : containsKey s ps = false := by simpa using hc
            rcases (by simpa [writeKey, setProp, hc'] using hkv :
                kv ∈ ps ∨ kv = (s, v)) with h2 | h2
            · exact hvals kv h2
            · rw [h2]
              exact hv
        · by_cases hc : containsKey s ps = true
          · simpa [writeKey, setProp, hc, keysOf_updateProp] using hnd
          · have hc' : containsKey s ps = false := by simpa using hc
            have : keysOf (ps ++ [(s, v)]) = keysOf ps ++ [s] := by simp [keysOf]
            simp only [writeKey, setProp, hc', Bool.false_eq_true, if_false, this]
            simp [List.nodup_append, hnd, notMem_keysOf_of_not_contains hc']
  | undef => exact ht
  | jnull => exact ht
  | jbool b => exact ht
  | jnum n => exact ht
  | jstr s => exact ht
  | jfile n sz => exact ht

theorem wf_mkContainer (k : Key) : WfJS (mkContainer k) := by
  cases k with
  | idx n => exact WfJS.jarr (by simp) (by simp) (by simp [keysOf])
  | field s => exact WfJS.jobj (by simp) (by simp [keysOf])

theorem wf_orContainer {v : JSVal} (h : WfJS v) (k : Key) : WfJS (orContainer v k) := by
  by_cases hn : nullish v = true
  · rw [orContainer, if_pos hn]
    exact wf_mkContainer k
  · rw [orContainer, if_neg hn]
    exact h

theorem wf_setPath : ∀ (p : List Key) {t : JSVal} (f : JSVal → JSVal), WfJS t →
    (∀ v, WfJS v → WfJS (f v)) → WfJS (setPath t p f)
  | [], _, _, ht, _ => ht
  | [k], _, f, ht, hf => wf_writeKey ht (hf _ (wf_readKey ht k)) k
  | k :: k2 :: rest, t, f, ht, hf =>
    wf_writeKey ht
      (wf_setPath (k2 :: rest) f (wf_orContainer (wf_readKey ht k) k2) hf) k

theorem wf_jsonNum {t : List Char} {v : JSVal} (h : jsonNum t = some v) : WfJS v := by
  unfold jsonNum at h
  split at h
  · split at h
    · cases h
      exact WfJS.jnum _
    · exact absurd h (by simp)
  · split at h
    · cases h
      exact WfJS.jnum _
    · exact absurd h (by simp)

theorem wf_jsonStringLit {t : List Char} {v : JSVal} (h : jsonStringLit t = some v) :
    WfJS v := by
  unfold jsonStringLit at h
  split at h
  · split at h
    · cases h
      exact WfJS.jstr _
    · exact absurd h (by simp)
  · exact absurd h (by simp)

theorem wf_jsonParse {s : List Char} {v : JSVal} (h : jsonParse s = some v) : WfJS v := by
  simp only [jsonParse] at h
  split at h
  · cases h; exact WfJS.jbool _
  · split at h
    · cases h; exact WfJS.jbool _
    · split at h
      · cases h; exact WfJS.jnull
      · split at h
        · rename_i v0 heq
          cases h
          exact wf_jsonStringLit heq
        · exact wf_jsonNum h

theorem wf_coerce (v : RawVal) : WfJS (coerce v) := by
  cases v with
  | rstr s =>
    by_cases hs : s = []
    · simp [coerce, hs]
      exact WfJS.undef
    · rw [coerce, if_neg hs]
      unfold safeParseJSON
      cases hj : jsonParse s with
      | none => exact WfJS.jstr s
      | some w => exact wf_jsonParse hj
  | rfile n sz =>
    by_cases hn : n = [] ∧ sz = 0
    · simp [coerce, hn]
      exact WfJS.undef
    · rw [coerce, if_neg hn]
      exact WfJS.jfile n sz

theorem wf_merge {p n : JSVal} (hp : WfJS p) (hn : WfJS n) : WfJS (merge p n) := by
  unfold merge
  by_cases h1 : truthy p = true
  · simp only [h1, Bool.not_true, Bool.false_eq_true, if_false]
    by_cases h2 : truthy n = true
    · simp only [h2, Bool.not_true, Bool.false_eq_true, if_false]
      cases p with
      | jarr es ps =>
        cases hp with
        | jarr he hv hnd =>
          unfold arrayConcat
          cases n with
          | jarr es2 ps2 =>
            cases hn with
            | jarr he2 hv2 hnd2 =>
              refine WfJS.jarr ?_ (by simp) (by simp [keysOf])
              intro w hw
              rcases List.mem_append.mp hw with h3 | h3
              · exact he w h3
              · exact he2 w h3
          | undef => exact WfJS.jarr (by
              intro w hw
              rcases List.mem_append.mp hw with h3 | h3
              · exact he w h3
              · simp only [List.mem_singleton] at h3
                exact h3 ▸ hn) (by simp) (by simp [keysOf])
          | jnull => exact WfJS.jarr (by
              intro w hw
              rcases List.mem_append.mp hw with h3 | h3
              · exact he w h3
              · simp only [List.mem_singleton] at h3
                exact h3 ▸ hn) (by simp) (by simp [keysOf])
          | jbool b => exact WfJS.jarr (by
              intro w hw
              rcases List.mem_append.mp hw with h3 | h3
              · exact he w h3
              · simp only [List.mem_singleton] at h3
                exact h3 ▸ hn) (by simp) (by simp [keysOf])
          | jnum m => exact WfJS.jarr (by
              intro w hw
              rcases List.mem_append.mp hw with h3 | h3
              · exact he w h3
              · simp only [List.mem_singleton] at h3
                exact h3 ▸ hn) (by simp) (by simp [keysOf])
          | jstr s => exact WfJS.jarr (by
              intro w hw
              rcases List.mem_append.mp hw with h3 | h3
              · exact he w h3
              · simp only [List.mem_singleton] at h3
                exact h3 ▸ hn) (by simp) (by simp [keysOf])
          | jfile nm sz => exact WfJS.jarr (by
              intro w hw
              rcases List.mem_append.mp hw with h3 | h3
              · exact he w h3
              · simp only [List.mem_singleton] at h3
                exact h3 ▸ hn) (by simp) (by simp [keysOf])
          | jobj ps2 => exact WfJS.jarr (by
              intro w hw
              rcases List.mem_append.mp hw with h3 | h3
              · exact he w h3
              · simp only [List.mem_singleton] at h3
                exact h3 ▸ hn) (by simp) (by simp [keysOf])
      | undef => exact WfJS.jarr (by
          intro w hw
          rcases List.mem_cons.mp hw with rfl | h3
          · exact hp
          · simp only [List.mem_singleton] at h3
            exact h3 ▸ hn) (by simp) (by simp [keysOf])
      | jnull => exact WfJS.jarr (by
          intro w hw
          rcases List.mem_cons.mp hw with rfl | h3
          · exact hp
          · simp only [List.mem_singleton] at h3
            exact h3 ▸ hn) (by simp) (by simp [keysOf])
      | jbool b => exact WfJS.jarr (by
          intro w hw
          rcases List.mem_cons.mp hw with rfl | h3
          · exact hp
          · simp only [List.mem_singleton] at h3
            exact h3 ▸ hn) (by simp) (by simp [keysOf])
      | jnum m => exact WfJS.jarr (by
          intro w hw
          rcases List.mem_cons.mp hw with rfl | h3
          · exact hp
          · simp only [List.mem_singleton] at h3
            exact h3 ▸ hn) (by simp) (by simp [keysOf])
      | jstr s => exact WfJS.jarr (by
          intro w hw
          rcases List.mem_cons.mp hw with rfl | h3
          · exact hp
          · simp only [List.mem_singleton] at h3
            exact h3 ▸ hn) (by simp) (by simp [keysOf])
      | jfile nm sz => exact WfJS.jarr (by
          intro w hw
          rcases List.mem_cons.mp hw with rfl | h3
          · exact hp
          · simp only [List.mem_singleton] at h3
            exact h3 ▸ hn) (by simp) (by simp [keysOf])
      | jobj ps => exact WfJS.jarr (by
          intro w hw
          rcases List.mem_cons.mp hw with rfl | h3
          · exact hp
          · simp only [List.mem_singleton] at h3
            exact h3 ▸ hn) (by simp) (by simp [keysOf])
    · simp only [h2]
      simp only [Bool.not_eq_true] at h2
      simp [h2, hp]
  · simp only [Bool.not_eq_true] at h1
    simp [h1, hn]

theorem wf_toRecordStep {t : JSVal} (ht : WfJS t) (e : RawEntry) :
    WfJS (toRecordStep t e) :=
  wf_setPath (getPaths e.1) _ ht (fun v hv => wf_merge hv (wf_coerce e.2))

theorem wf_foldl_toRecordStep : ∀ (es : List RawEntry) {t : JSVal}, WfJS t →
    WfJS (es.foldl toRecordStep t)
  | [], _, ht => ht
  | e :: rest, _, ht => wf_foldl_toRecordStep rest (wf_toRecordStep ht e)

theorem wf_toRecord (es : List RawEntry) : WfJS (toRecord es) :=
  wf_foldl_toRecordStep es (WfJS.jobj (by simp) (by simp [keysOf]))

/-! ## Canonical forms are preserved by the builder's operations -/

theorem canon_undef : canon .undef = .undef := rfl

theorem canon_jnull : canon .jnull = .jnull := rfl

theorem canon_jbool (b : Bool) : canon (.jbool b) = .jbool b := rfl

theorem canon_jnum (n : Int) : canon (.jnum n) = .jnum n := rfl

theorem canon_jstr (s : List Char) : canon (.jstr s) = .jstr s := rfl

theorem canon_jfile (n : List Char) (sz : Nat) : canon (.jfile n sz) = .jfile n sz := rfl

theorem nullish_canon (t : JSVal) : nullish (canon t) = nullish t := by
  cases t <;> rfl

theorem truthy_canon (t : JSVal) : truthy (canon t) = truthy t := by
  cases t <;> rfl

theorem isContainer_canon (t : JSVal) : isContainer (canon t) = isContainer t := by
  cases t <;> rfl

theorem canon_eq_jobj {t : JSVal} {qs : List (List Char × JSVal)}
    (h : canon t = .jobj qs) :
    ∃ ps, t = .jobj ps ∧ sortProps (canonProps ps) = qs := by
  cases t with
  | jobj ps => exact ⟨ps, rfl, by simpa [canon_jobj] using h⟩
  | jarr es ps => simp [canon_jarr] at h
  | undef => simp [canon_undef] at h
  | jnull => simp [canon_jnull] at h
  | jbool b => simp [canon_jbool] at h
  | jnum n => simp [canon_jnum] at h
  | jstr s => simp [canon_jstr] at h
  | jfile n sz => simp [canon_jfile] at h

theorem canon_eq_jarr {t : JSVal} {es' : List JSVal} {qs : List (List Char × JSVal)}
    (h : canon t = .jarr es' qs) :
    ∃ es ps, t = .jarr es ps ∧ canonList es = es' ∧ sortProps (canonProps ps) = qs := by
  cases t with
  | jarr es ps =>
    refine ⟨es, ps, rfl, ?_, ?_⟩
    · exact (by simpa [canon_jarr] using h : _ ∧ _).1
    · exact (by simpa [canon_jarr] using h : _ ∧ _).2
  | jobj ps => simp [canon_jobj] at h
  | undef => simp [canon_undef] at h
  | jnull => simp [canon_jnull] at h
  | jbool b => simp [canon_jbool] at h
  | jnum n => simp [canon_jnum] at h
  | jstr s => simp [canon_jstr] at h
  | jfile n sz => simp [canon_jfile] at h

theorem readKey_of_scalar {t : JSVal} (h : isContainer t = false) (k : Key) :
    readKey t k = .undef := by
  cases t <;> simp_all [readKey, isContainer]

theorem nodup_keys_of_wf_jobj {ps : List (List Char × JSVal)} (h : WfJS (.jobj ps)) :
    (keysOf ps).Nodup := by
  cases h with
  | jobj hv hnd => exact hnd

theorem nodup_keys_of_wf_jarr {es : List JSVal} {ps : List (List Char × JSVal)}
    (h : WfJS (.jarr es ps)) : (keysOf ps).Nodup := by
  cases h with
  | jarr he hv hnd => exact hnd

theorem canon_readKey_congr {t1 t2 : JSVal} (w1 : WfJS t1) (w2 : WfJS t2)
    (h : canon t1 = canon t2) (k : Key) :
    canon (readKey t1 k) = canon (readKey t2 k) := by
  by_cases hc : isContainer t1 = true
  · cases t1 with
    | jobj ps1 =>
      obtain ⟨ps2, rfl, hps⟩ := canon_eq_jobj (h.symm.trans (canon_jobj ps1))
      have hnd1 : (keysOf (canonProps ps1)).Nodup := by
        rw [keysOf_canonProps]
        exact nodup_keys_of_wf_jobj w1
      have hnd2 : (keysOf (canonProps ps2)).Nodup := by
        rw [keysOf_canonProps]
        exact nodup_keys_of_wf_jobj w2
      show canon (lookupProp (keyStr k) ps1) = canon (lookupProp (keyStr k) ps2)
      rw [← lookupProp_canonProps, ← lookupProp_canonProps,
        ← lookupProp_sortProps _ (canonProps ps1) hnd1,
        ← lookupProp_sortProps _ (canonProps ps2) hnd2, hps]
    | jarr es1 ps1 =>
      obtain ⟨es2, ps2, rfl, hes, hps⟩ := canon_eq_jarr (h.symm.trans (canon_jarr es1 ps1))
      have hnd1 : (keysOf (canonProps ps1)).Nodup := by
        rw [keysOf_canonProps]
        exact nodup_keys_of_wf_jarr w1
      have hnd2 : (keysOf (canonProps ps2)).Nodup := by
        rw [keysOf_canonProps]
        exact nodup_keys_of_wf_jarr w2
      cases k with
      | idx n =>
        show canon (elemAt es1 n) = canon (elemAt es2 n)
        rw [← elemAt_canonList, ← elemAt_canonList, hes]
      | field s =>
        show canon (lookupProp s ps1) = canon (lookupProp s ps2)
        rw [← lookupProp_canonProps, ← lookupProp_canonProps,
          ← lookupProp_sortProps s (canonProps ps1) hnd1,
          ← lookupProp_sortProps s (canonProps ps2) hnd2, hps]
    | undef => simp [isContainer] at hc
    | jnull => simp [isContainer] at hc
    | jbool b => simp [isContainer] at hc
    | jnum n => simp [isContainer] at hc
    | jstr s => simp [isContainer] at hc
    | jfile n sz => simp [isContainer] at hc
  · have hc1 : isContainer t1 = false := by simpa using hc
    have hc2 : isContainer t2 = false := by
      rw [← isContainer_canon t2, ← h, isContainer_canon]
      exact hc1
    rw [readKey_of_scalar hc1, readKey_of_scalar hc2]

theorem canon_orContainer_congr {r1 r2 : JSVal} (h : canon r1 = canon r2) (k : Key) :
    canon (orContainer r1 k) = canon (orContainer r2 k) := by
  have hn : nullish r1 = nullish r2 := by rw [← nullish_canon r1, h, nullish_canon]
  by_cases h1 : nullish r1 = true
  · rw [orContainer, if_pos h1, orContainer, if_pos (hn ▸ h1)]
  · rw [orContainer, if_neg h1, orContainer, if_neg (hn ▸ h1)]
    exact h

theorem canon_writeKey_congr {t1 t2 : JSVal} (w1 : WfJS t1) (w2 : WfJS t2)
    (h : canon t1 = canon t2) (k : Key) {v1 v2 : JSVal} (hv : canon v1 = canon v2) :
    canon (writeKey t1 k v1) = canon (writeKey t2 k v2) := by
  cases t1 with
  | jobj ps1 =>
    obtain ⟨ps2, rfl, hps⟩ := canon_eq_jobj (h.symm.trans (canon_jobj ps1))
    have hnd1 : (keysOf (canonProps ps1)).Nodup := by
      rw [keysOf_canonProps]
      exact nodup_keys_of_wf_jobj w1
    have hnd2 : (keysOf (canonProps ps2)).Nodup := by
      rw [keysOf_canonProps]
      exact nodup_keys_of_wf_jobj w2
    show canon (.jobj (setProp ps1 (keyStr k) v1)) = canon (.jobj (setProp ps2 (keyStr k) v2))
    rw [canon_jobj, canon_jobj, canonProps_setProp, canonProps_setProp, hv]
    rw [sortProps_setProp_congr hnd1 hnd2 hps.symm (keyStr k) (canon v2)]
  | jarr es1 ps1 =>
    obtain ⟨es2, ps2, rfl, hes, hps⟩ := canon_eq_jarr (h.symm.trans (canon_jarr es1 ps1))
    have hnd1 : (keysOf (canonProps ps1)).Nodup := by
      rw [keysOf_canonProps]
      exact nodup_keys_of_wf_jarr w1
    have hnd2 : (keysOf (canonProps ps2)).Nodup := by
      rw [keysOf_canonProps]
      exact nodup_keys_of_wf_jarr w2
    cases k with
    | idx n =>
      show canon (.jarr (padSet es1 n v1) ps1) = canon (.jarr (padSet es2 n v2) ps2)
      rw [canon_jarr, canon_jarr, canonList_padSet, canonList_padSet, hv, hes, hps]
    | field s =>
      show canon (.jarr es1 (setProp ps1 s v1)) = canon (.jarr es2 (setProp ps2 s v2))
      rw [canon_jarr, canon_jarr, hes, canonProps_setProp, canonProps_setProp, hv,
        sortProps_setProp_congr hnd1 hnd2 hps.symm s (canon v2)]
  | undef =>
    rw [show t2 = .undef from by
      cases t2 <;> simp_all [canon_undef, canon_jnull, canon_jbool, canon_jnum,
        canon_jstr, canon_jfile, canon_jobj, canon_jarr],
      @writeKey_scalar JSVal.undef rfl k v1, @writeKey_scalar JSVal.undef rfl k v2]
  | jnull =>
    rw [show t2 = .jnull from by
      cases t2 <;> simp_all [canon_undef, canon_jnull, canon_jbool, canon_jnum,
        canon_jstr, canon_jfile, canon_jobj, canon_jarr],
      @writeKey_scalar JSVal.jnull rfl k v1, @writeKey_scalar JSVal.jnull rfl k v2]
  | jbool b =>
    rw [show t2 = .jbool b from by
      cases t2 <;> simp_all [canon_undef, canon_jnull, canon_jbool, canon_jnum,
        canon_jstr, canon_jfile, canon_jobj, canon_jarr],
      @writeKey_scalar (JSVal.jbool b) rfl k v1, @writeKey_scalar (JSVal.jbool b) rfl k v2]
  | jnum n =>
    rw [show t2 = .jnum n from by
      cases t2 <;> simp_all [canon_undef, canon_jnull, canon_jbool, canon_jnum,
        canon_jstr, canon_jfile, canon_jobj, canon_jarr],
      @writeKey_scalar (JSVal.jnum n) rfl k v1, @writeKey_scalar (JSVal.jnum n) rfl k v2]
  | jstr s =>
    rw [show t2 = .jstr s from by
      cases t2 <;> simp_all [canon_undef, canon_jnull, canon_jbool, canon_jnum,
        canon_jstr, canon_jfile, canon_jobj, canon_jarr],
      @writeKey_scalar (JSVal.jstr s) rfl k v1, @writeKey_scalar (JSVal.jstr s) rfl k v2]
  | jfile n sz =>
    rw [show t2 = .jfile n sz from by
      cases t2 <;> simp_all [canon_undef, canon_jnull, canon_jbool, canon_jnum,
        canon_jstr, canon_jfile, canon_jobj, canon_jarr],
      @writeKey_scalar (JSVal.jfile n sz) rfl k v1, @writeKey_scalar (JSVal.jfile n sz) rfl k v2]

theorem canon_merge_congr {p1 p2 : JSVal} (h : canon p1 = canon p2) (next : JSVal) :
    canon (merge p1 next) = canon (merge p2 next) := by
  have ht : truthy p2 = truthy p1 := by rw [← truthy_canon p2, ← h, truthy_canon]
  unfold merge
  rw [ht]
  by_cases h1 : truthy p1 = true
  · simp only [h1, Bool.not_true, Bool.false_eq_true, if_false]
    by_cases h2 : truthy next = true
    · simp only [h2, Bool.not_true, Bool.false_eq_true, if_false]
      cases p1 with
      | jarr es1 ps1 =>
        obtain ⟨es2, ps2, rfl, hes, hps⟩ := canon_eq_jarr (h.symm.trans (canon_jarr es1 ps1))
        show canon (arrayConcat es1 next) = canon (arrayConcat es2 next)
        unfold arrayConcat
        cases next <;>
          simp [canon_jarr, canonList_append, canonList_cons, canonList_nil, hes,
            canonProps_nil]
      | jobj ps1 =>
        obtain ⟨ps2, rfl, hps⟩ := canon_eq_jobj (h.symm.trans (canon_jobj ps1))
        show canon (.jarr [.jobj ps1, next] []) = canon (.jarr [.jobj ps2, next] [])
        simp only [canon_jarr, canonList_cons, canonList_nil, canon_jobj,
          canonProps_nil, hps]
      | undef =>
        rw [show p2 = .undef from by
          cases p2 <;> simp_all [canon_undef, canon_jnull, canon_jbool, canon_jnum,
            canon_jstr, canon_jfile, canon_jobj, canon_jarr]]
      | jnull =>
        rw [show p2 = .jnull from by
          cases p2 <;> simp_all [canon_undef, canon_jnull, canon_jbool, canon_jnum,
            canon_jstr, canon_jfile, canon_jobj, canon_jarr]]
      | jbool b =>
        rw [show p2 = .jbool b from by
          cases p2 <;> simp_all [canon_undef, canon_jnull, canon_jbool, canon_jnum,
            canon_jstr, canon_jfile, canon_jobj, canon_jarr]]
      | jnum n =>
        rw [show p2 = .jnum n from by
          cases p2 <;> simp_all [canon_undef, canon_jnull, canon_jbool, canon_jnum,
            canon_jstr, canon_jfile, canon_jobj, canon_jarr]]
      | jstr s =>
        rw [show p2 = .jstr s from by
          cases p2 <;> simp_all [canon_undef, canon_jnull, canon_jbool, canon_jnum,
            canon_jstr, canon_jfile, canon_jobj, canon_jarr]]
      | jfile n sz =>
        rw [show p2 = .jfile n sz from by
          cases p2 <;> simp_all [canon_undef, canon_jnull, canon_jbool, canon_jnum,
            canon_jstr, canon_jfile, canon_jobj, canon_jarr]]
    · simp only [Bool.not_eq_true] at h2
      simp only [h2, Bool.not_false, if_true]
      exact h
  · simp only [Bool.not_eq_true] at h1
    simp [h1]

theorem canon_setPath_congr : ∀ (p : List Key) {t1 t2 : JSVal} (next : JSVal),
    WfJS t1 → WfJS t2 → canon t1 = canon t2 →
    canon (setPath t1 p (fun prev => merge prev next))
      = canon (setPath t2 p (fun prev => merge prev next))
  | [], _, _, _, _, _, h => h
  | [k], t1, t2, next, w1, w2, h =>
    canon_writeKey_congr w1 w2 h k
      (canon_merge_congr (canon_readKey_congr w1 w2 h k) next)
  | k :: k2 :: rest, t1, t2, next, w1, w2, h =>
    canon_writeKey_congr w1 w2 h k
      (canon_setPath_congr (k2 :: rest) next
        (wf_orContainer (wf_readKey w1 k) k2)
        (wf_orContainer (wf_readKey w2 k) k2)
        (canon_orContainer_congr (canon_readKey_congr w1 w2 h k) k2))

theorem canon_foldl_congr : ∀ (es : List RawEntry) {t1 t2 : JSVal}, WfJS t1 → WfJS t2 →
    canon t1 = canon t2 →
    canon (es.foldl toRecordStep t1) = canon (es.foldl toRecordStep t2)
  | [], _, _, _, _, h => h
  | e :: rest, t1, t2, w1, w2, h => by
    simp only [List.foldl_cons]
    exact canon_foldl_congr rest (wf_toRecordStep w1 e) (wf_toRecordStep w2 e)
      (canon_setPath_congr (getPaths e.1) (coerce e.2) w1 w2 h)

/-! # Claims -/

/-- A successful anchored match implies a bracket group starts right
after the leading word run. -/
theorem groupAtB_of_matchAt {s : List Char} {r : List Char × List Char}
    (h : matchAt s = some r) : groupAtB (s.dropWhile isWordChar) = true := by
  unfold matchAt at h
  unfold groupAtB
  split at h
  · split at h
    · exact absurd h (by simp)
    · simp_all
    · exact absurd h (by simp)
  · exact absurd h (by simp)

/-- A bracket group at any suffix makes the token contain a group. -/
theorem hasGroupB_of_suffix : ∀ (s r : List Char), r <:+ s → groupAtB r = true →
    hasGroupB s = true
  | [], r, hsuf, hg => by
    rw [List.suffix_nil.mp hsuf] at hg
    exact absurd hg (by simp [groupAtB])
  | c :: cs, r, hsuf, hg => by
    rcases List.suffix_cons_iff.mp hsuf with rfl | hsuf
    · simp [hasGroupB, hg]
    · simp [hasGroupB, hasGroupB_of_suffix cs r hsuf hg]

/-- When the token contains no bracket group the regex cannot match. -/
theorem execPattern_none_of_no_group : ∀ {s : List Char}, hasGroupB s = false →
    execPattern s = none
  | [], _ => rfl
  | c :: rest, h => by
    have h' : groupAtB (c :: rest) = false ∧ hasGroupB rest = false := by
      simpa [hasGroupB, Bool.or_eq_false_iff] using h
    cases hm : matchAt (c :: rest) with
    | some r =>
      exfalso
      have := hasGroupB_of_suffix (c :: rest) _ (List.dropWhile_suffix isWordChar)
        (groupAtB_of_matchAt hm)
      rw [this] at h
      exact absurd h (by simp)
    | none => simp [execPattern, hm, execPattern_none_of_no_group h'.2]

/-- Groupless tokens parse to themselves. -/
theorem flatten_parseToken_of_no_group : ∀ (toks : List (List Char)),
    (∀ tok ∈ toks, hasGroupB tok = false) →
    (toks.map parseToken).flatten = toks.map Key.field
  | [], _ => rfl
  | tok :: rest, h => by
    have h1 : parseToken tok = [.field tok] := by
      simp [parseToken, execPattern_none_of_no_group (h tok (List.mem_cons_self _ _))]
    simp [h1, flatten_parseToken_of_no_group rest
      (fun t ht => h t (List.mem_cons_of_mem _ ht))]

/-- A token satisfying `groupAtB` decomposes as a bracket group at its
head. -/
theorem groupAtB_decomp {s : List Char} (h : groupAtB s = true) :
    ∃ d rest2, s = '[' :: (d ++ ']' :: rest2) ∧ d ≠ [] ∧ d.all isDigit09 = true := by
  unfold groupAtB at h
  split at h
  · rename_i rest
    split at h
    · simp at h
    · rename_i x1 x2 heq1 heq2
      refine ⟨rest.takeWhile isDigit09, x2, ?_, heq2, ?_⟩
      · have h0 : rest.takeWhile isDigit09 ++ rest.dropWhile isDigit09 = rest :=
          List.takeWhile_append_dropWhile isDigit09 rest
        rw [heq1] at h0
        rw [h0]
      · exact List.all_eq_true.mpr fun c hc => List.mem_takeWhile_imp hc
    · simp at h
  · simp at h

/-- Inversion of the anchored match: a successful `matchAt` exhibits
the captured field name (the maximal word-character prefix) and the
captured digits, with the group immediately following. -/
theorem matchAt_some_decomp {s w d : List Char} (h : matchAt s = some (w, d)) :
    ∃ rest2, s = w ++ '[' :: (d ++ ']' :: rest2)
      ∧ w = s.takeWhile isWordChar ∧ w.all isWordChar = true
      ∧ d ≠ [] ∧ d.all isDigit09 = true := by
  unfold matchAt at h
  split at h
  · rename_i rest heq
    split at h
    · exact absurd h (by simp)
    · rename_i x1 x2 heq1 heq2
      have hinj := Option.some.inj h
      have hw : s.takeWhile isWordChar = w := congrArg Prod.fst hinj
      have hd : rest.takeWhile isDigit09 = d := congrArg Prod.snd hinj
      refine ⟨x2, ?_, hw.symm, ?_, ?_, ?_⟩
      · have h0 : s.takeWhile isWordChar ++ s.dropWhile isWordChar = s :=
          List.takeWhile_append_dropWhile isWordChar s
        have h1 : rest.takeWhile isDigit09 ++ rest.dropWhile isDigit09 = rest :=
          List.takeWhile_append_dropWhile isDigit09 rest
        rw [heq1, hd] at h1
        rw [heq, hw, ← h1] at h0
        rw [← h0]
      · rw [← hw]
        exact List.all_eq_true.mpr fun c hc => List.mem_takeWhile_imp hc
      · intro hx
        exact heq2 (by rw [hd, hx])
      · rw [← hd]
        exact List.all_eq_true.mpr fun c hc => List.mem_takeWhile_imp hc
    · exact absurd h (by simp)
  · exact absurd h (by simp)

/-- The characterization of `exec` on a token that contains a bracket
group: the leftmost match decomposes the token into a prefix the regex
skips, the word characters immediately before the first group (the
prefix cannot end in a word character), the group's digits, and a
dropped remainder; every strictly longer suffix fails the anchored
match, which is the leftmost-match property. -/
theorem execPattern_decomp : ∀ (s : List Char), hasGroupB s = true →
    ∃ pre w d rest2,
      s = pre ++ w ++ '[' :: (d ++ ']' :: rest2)
      ∧ execPattern s = some (w, d)
      ∧ w.all isWordChar = true ∧ d ≠ [] ∧ d.all isDigit09 = true
      ∧ (pre = [] ∨ ∃ c pre2, pre = pre2 ++ [c] ∧ isWordChar c = false)
      ∧ ∀ t, t <:+ s → w.length + d.length + rest2.length + 2 < t.length →
          matchAt t = none
  | [], h => by simp [hasGroupB] at h
  | c :: rest, h => by
    cases hm : matchAt (c :: rest) with
    | some r =>
      obtain ⟨w, d⟩ := r
      obtain ⟨rest2, hs, hwt, hwall, hdne, hdall⟩ := matchAt_some_decomp hm
      refine ⟨[], w, d, rest2, by simpa using hs, ?_, hwall, hdne, hdall,
        Or.inl rfl, ?_⟩
      · simp [execPattern, hm]
      · intro t hsuf hlen
        exfalso
        have h1 : t.length ≤ (c :: rest).length := hsuf.length_le
        have h2 : (c :: rest).length = w.length + d.length + rest2.length + 2 := by
          rw [hs]
          simp [List.length_append]
          omega
        omega
    | none =>
      have hg : groupAtB (c :: rest) = false := by
        by_contra hgc
        obtain ⟨d, r2, hseq, hdne, hdall⟩ :=
          groupAtB_decomp (show groupAtB (c :: rest) = true by simpa using hgc)
        have hb := matchAt_bracket [] d r2 (by simp) hdall hdne
        simp only [List.nil_append] at hb
        rw [← hseq, hm] at hb
        exact absurd hb (by simp)
      have hr : hasGroupB rest = true := by
        simpa [hasGroupB, hg] using h
      obtain ⟨pre2, w, d, rest2, hs, hexec, hwall, hdne, hdall, hpre, hleft⟩ :=
        execPattern_decomp rest hr
      refine ⟨c :: pre2, w, d, rest2, by simp [hs], ?_, hwall, hdne, hdall, ?_, ?_⟩
      · simp [execPattern, hm, hexec]
      · cases hpre with
        | inl hp =>
          refine Or.inr ⟨c, [], by simp [hp], ?_⟩
          by_contra hwc
          have hwc' : isWordChar c = true := by simpa using hwc
          rw [hp, List.nil_append] at hs
          have hb := matchAt_bracket (c :: w) d rest2 (by simp [hwc', hwall]) hdall hdne
          rw [show (c :: w) ++ '[' :: (d ++ ']' :: rest2) = c :: rest from by
            simp [hs], hm] at hb
          exact absurd hb (by simp)
        | inr hp =>
          obtain ⟨c2, pre3, hp1, hp2⟩ := hp
          exact Or.inr ⟨c2, c :: pre3, by simp [hp1], hp2⟩
      · intro t hsuf hlen
        rcases List.suffix_cons_iff.mp hsuf with heq | hsuf2
        · rw [heq]
          exact hm
        · exact hleft t hsuf2 hlen

/-- C4 counterexample: the token `"[0][1]"` matches neither the
bare-field pattern (it contains brackets) nor the anchored full
bracket pattern (material follows the first `]`), yet `getPaths` does
not return it unchanged as a literal field name: the unanchored regex
finds the first group and yields the single index `0`. -/
theorem c4_counterexample :
    claimBareB (("[0][1]").toList) = false
      ∧ claimFullB (("[0][1]").toList) = false
      ∧ parseToken (("[0][1]").toList) ≠ [.field (("[0][1]").toList)]
      ∧ getPaths (("[0][1]").toList) = [.idx 0] := by
  decide

/-- C4 amended: a dot-delimited token is returned unchanged as a
single literal field-name segment (and no error is raised — parsing is
total) exactly when it contains no bracket group `"[" digits "]"`
anywhere.  A token that does contain one is parsed by the regex's
first match: the token splits into a skipped prefix (which cannot end
in a word character, so the captured name is maximal), the word
characters immediately before the first group, the group's digits, and
a dropped remainder, no strictly longer suffix admitting the anchored
match (leftmost-match).  The parse keeps only the captured name and
index — all other characters of the token are dropped, and only this
one bracket group is recognized (the result carries a single index, so
chained brackets like `[0][1]` are never read as two indices). -/
theorem c4_literal_fallback :
    (∀ name : List Char, name ≠ [] → (∀ tok ∈ splitDot name, hasGroupB tok = false) →
        getPaths name = (splitDot name).map Key.field)
      ∧ ∀ tok : List Char,
          (hasGroupB tok = false → parseToken tok = [.field tok])
          ∧ (hasGroupB tok = true →
              ∃ pre w d rest2,
                tok = pre ++ w ++ '[' :: (d ++ ']' :: rest2)
                ∧ w.all isWordChar = true ∧ d ≠ [] ∧ d.all isDigit09 = true
                ∧ (pre = [] ∨ ∃ c pre2, pre = pre2 ++ [c] ∧ isWordChar c = false)
                ∧ (∀ t, t <:+ tok →
                    w.length + d.length + rest2.length + 2 < t.length →
                      matchAt t = none)
                ∧ parseToken tok = if w = [] then [.idx (charsToNat d)]
                    else [.field w, .idx (charsToNat d)]) := by
  refine ⟨?_, fun tok => ⟨?_, ?_⟩⟩
  · intro name hne h
    rw [show getPaths name = ((splitDot name).map parseToken).flatten by
      simp [getPaths, hne]]
    exact flatten_parseToken_of_no_group (splitDot name) h
  · intro h
    simp [parseToken, execPattern_none_of_no_group h]
  · intro h
    obtain ⟨pre, w, d, rest2, hs, hexec, hwall, hdne, hdall, hpre, hleft⟩ :=
      execPattern_decomp tok h
    exact ⟨pre, w, d, rest2, hs, hwall, hdne, hdall, hpre, hleft,
      by simp [parseToken, hexec]⟩

/-- C4 witness: the key `"a-b.c!"` has two groupless tokens kept as
literal field names, and the token `"a[0]b"` contains a group and is
parsed by its first match. -/
theorem c4_witness :
    (("a-b.c!").toList ≠ []
        ∧ getPaths (("a-b.c!").toList)
            = [.field ("a-b").toList, .field ("c!").toList])
      ∧ (hasGroupB (("a[0]b").toList) = true
        ∧ ∃ pre w d rest2,
            ("a[0]b").toList = pre ++ w ++ '[' :: (d ++ ']' :: rest2)
            ∧ w.all isWordChar = true ∧ d ≠ [] ∧ d.all isDigit09 = true
            ∧ (pre = [] ∨ ∃ c pre2, pre = pre2 ++ [c] ∧ isWordChar c = false)
            ∧ (∀ t, t <:+ (("a[0]b").toList) →
                w.length + d.length + rest2.length + 2 < t.length →
                  matchAt t = none)
            ∧ parseToken (("a[0]b").toList) = if w = [] then [.idx (charsToNat d)]
                else [.field w, .idx (charsToNat d)]) := by
  constructor
  · refine ⟨by decide, ?_⟩
    have h := c4_literal_fallback.1 (("a-b.c!").toList) (by decide) (by decide)
    simpa [splitDot] using h
  · exact ⟨by decide, (c4_literal_fallback.2 (("a[0]b").toList)).2 (by decide)⟩

/-- C2 counterexample: `"a.[0]"` is syntactically valid for the
claim's grammar — the segments are the field name `a` and the bare
bracket segment `[0]` — but the round trip loses the dot: the parse is
`[a, 0]` and `formatPaths` renders an index with no separator, giving
`"a[0]"`. -/
theorem c2_counterexample :
    specValidPathB (("a.[0]").toList) = true
      ∧ formatPaths (getPaths (("a.[0]").toList)) ≠ ("a.[0]").toList
      ∧ formatPaths (getPaths (("a.[0]").toList)) = ("a[0]").toList := by
  decide

/-- C2 amended: the round-trip law holds for path strings in
`formatPaths`'s own image syntax: every dot-delimited token is either
a non-empty word token or `fieldName[index]` with a word-character
field name, a bare `[index]` segment is allowed only as the first
token (later ones would re-render without their dot), indices carry no
leading zeros, and indices stay below `2 ^ 53` so the JavaScript
number round trip is exact. -/
theorem c2_roundtrip_canonical (s : List Char) (h : canonPathB s = true) :
    formatPaths (getPaths s) = s := by
  have hnil : canonPathB ([] : List Char) = false := by decide
  have hs : s ≠ [] := by
    intro heq
    rw [heq, hnil] at h
    exact absurd h (by simp)
  cases hsplit : splitDot s with
  | nil => exact absurd hsplit (splitDot_ne_nil s)
  | cons t0 rest =>
    have h' : canonTokenB true t0 = true ∧ rest.all (canonTokenB false) = true := by
      have := h
      unfold canonPathB at this
      rw [hsplit] at this
      simpa [Bool.and_eq_true] using this
    have hjoin : dotJoin (t0 :: rest) = s := hsplit ▸ dotJoin_splitDot s
    have hfirst : (parseToken t0).foldl formatStep [] = t0 := by
      rcases (by simpa [canonTokenB, Bool.and_eq_true, Bool.not_eq_true',
          List.isEmpty_eq_false] using h'.1 :
          (t0 ≠ [] ∧ t0.all isWordChar = true) ∨ canonBracketB true t0 = true) with hb | hb
      · rw [parseToken_of_all_word hb.2]
        simp [formatStep]
      · obtain ⟨f, d, hdecomp, hfw, hdd, hdne, hcanon, _⟩ := canonBracketB_decomp hb
        by_cases hf : f = []
        · subst hf
          rw [hdecomp, parseToken_bracket [] d (by simp) hdd hdne, if_pos rfl]
          simp [formatStep, ← hcanon]
        · rw [hdecomp, parseToken_bracket f d hfw hdd hdne, if_neg hf]
          simp only [List.foldl_cons, List.foldl_nil]
          rw [show formatStep [] (.field f) = f by simp [formatStep]]
          simp [formatStep, ← hcanon]
    have ht0 : t0 ≠ [] := by
      rcases (by simpa [canonTokenB, Bool.and_eq_true, Bool.not_eq_true',
          List.isEmpty_eq_false] using h'.1 :
          (t0 ≠ [] ∧ t0.all isWordChar = true) ∨ canonBracketB true t0 = true) with hb | hb
      · exact hb.1
      · obtain ⟨f, d, hdecomp, _, _, _, _, _⟩ := canonBracketB_decomp hb
        rw [hdecomp]
        simp
    have : formatPaths (getPaths s) = ((t0 :: rest).map parseToken).flatten.foldl formatStep [] := by
      simp [formatPaths, getPaths, hs, hsplit]
    rw [this]
    simp only [List.map_cons, List.flatten_cons, List.foldl_append, hfirst]
    rw [format_fold_tokens rest t0 ht0 h'.2]
    cases rest with
    | nil => simpa [dotJoin] using hjoin
    | cons t2 ts => simpa [dotJoin_cons_cons] using hjoin

/-- C2 witness at the canonical path string `"tasks[0].label"`. -/
theorem c2_witness :
    canonPathB (("tasks[0].label").toList) = true
      ∧ formatPaths (getPaths (("tasks[0].label").toList)) = ("tasks[0].label").toList :=
  ⟨by decide, c2_roundtrip_canonical (("tasks[0].label").toList) (by decide)⟩

/-- C1 counterexample: the merge callback does not follow the four
spec rules.  A falsy but present previous occupant — here the boolean
`false`, as coerced from the string `"false"` — is treated like the
absent marker: the code returns `next` alone where the spec's fourth
rule demands the two-element sequence `[previous, next]`. -/
theorem c1_counterexample :
    merge (.jbool false) (.jstr ("a").toList)
        ≠ specMergeClaimed (.jbool false) (.jstr ("a").toList)
      ∧ merge (.jbool false) (.jstr ("a").toList) = .jstr ("a").toList
      ∧ specMergeClaimed (.jbool false) (.jstr ("a").toList)
          = .jarr [.jbool false, .jstr ("a").toList] [] := by
  decide

/-- C1 amended: the merge applied at the final slot by `toRecord`'s
callback (the function `merge`, which `toRecordStep` passes to the
walk) satisfies the four rules with *falsiness* in place of absence:
a falsy previous occupant (absent, `null`, `false`, `0`, or the empty
string) is replaced by `next`; a falsy `next` leaves `previous`
unchanged; an array `previous` is concatenated with `next` (spreading
`next` when it is itself an array, dropping string properties);
otherwise the result is the two-element sequence `[previous, next]`. -/
theorem c1_merge_rules_truthiness (prev next : JSVal) :
    merge prev next = specMergeAmended prev next := by
  cases prev <;> cases next <;>
    simp [merge, specMergeAmended, truthy, falsyJS, arrayConcat, Bool.not_not,
      List.isEmpty_iff]

/-- C7: the coercion in `toRecord` matches spec §4.2 step 1 exactly:
empty strings and empty zero-size files become the absent marker, any
other string is JSON-parsed with the original string as the fallback,
and non-empty file handles pass through opaque, never JSON-parsed. -/
theorem c7_coercion_refines_spec (v : RawVal) : coerce v = specCoerce v := by
  cases v with
  | rstr s =>
    cases s with
    | nil => rfl
    | cons c rest =>
      simp only [coerce, specCoerce, isEmptyRaw, List.isEmpty_cons, if_neg,
        reduceCtorEq, Bool.false_eq_true, not_false_eq_true]
      cases h : jsonParse (c :: rest) <;> simp [safeParseJSON, h]
  | rfile n sz =>
    cases n with
    | nil =>
      by_cases hsz : sz = 0 <;>
        simp [coerce, specCoerce, isEmptyRaw, hsz, List.isEmpty_nil]
    | cons c rest => simp [coerce, specCoerce, isEmptyRaw]

/-- C8: `parseRequestAsync` inspects the Content-Type header; without
a multipart form body it delegates entirely to `parseQueryAsync`, and
otherwise it validates the record built from the form entries followed
by the URL's query entries, so same-key form values precede query
values in the merge order of §4.2. -/
theorem c8_request_adapter_order (r : MockRequest) (schema : Schema) :
    parseRequestAsync r schema =
      if containsFormData r then schema (toRecord (r.formEntries ++ queryRaw r))
      else parseQueryAsync r schema := by
  cases h : containsFormData r <;>
    simp [parseRequestAsync, parseFormDataAsync, h]

/-- C9: the transform produced by `zt.json` passes absent values
(`null`, `undefined`) through unchanged; otherwise it JSON-decodes the
string and runs the inner validator, reporting the issue "Must be a
valid JSON string." and returning the abort sentinel on decode failure
or inner-validator failure, and returning the inner validator's output
on success. -/
theorem c9_zt_json_refines_spec (inner : JSVal → Option JSVal) (v : ZtIn) :
    ztJson inner v = specZtJson inner v := by
  cases v with
  | znull => rfl
  | zundef => rfl
  | zstr s =>
    simp only [ztJson, specZtJson]
    cases h : jsonParse s with
    | none => simp
    | some parsed => cases hi : inner parsed <;> simp [hi]

/-- C3 counterexample: the keys `"a.b"` and `"a[0]"` parse to
different paths, yet swapping the two entries changes the record
built by `toRecord`, even compared as key→value maps at every depth
(`canon`): the first segment `a` is created as an object by one order
(the later array index lands as a string property `"0"` of that
object) and as an array by the other order (the later field `b` lands
as a non-index property of that array), and those records differ. -/
theorem c3_counterexample :
    getPaths (("a.b").toList) ≠ getPaths (("a[0]").toList)
      ∧ canon (toRecord [((("a.b").toList), .rstr (("1").toList)),
            ((("a[0]").toList), .rstr (("2").toList))])
          ≠ canon (toRecord [((("a[0]").toList), .rstr (("2").toList)),
            ((("a.b").toList), .rstr (("1").toList))])
      ∧ toRecord [((("a.b").toList), .rstr (("1").toList)),
            ((("a[0]").toList), .rstr (("2").toList))]
          = .jobj [((("a").toList),
              .jobj [((("b").toList), .jnum 1), ((("0").toList), .jnum 2)])]
      ∧ toRecord [((("a[0]").toList), .rstr (("2").toList)),
            ((("a.b").toList), .rstr (("1").toList))]
          = .jobj [((("a").toList),
              .jarr [.jnum 2] [((("b").toList), .jnum 1)])] := by
  refine ⟨by decide, by decide, by decide, by decide⟩

/-- C3 amended: swapping two adjacent entries of the entry sequence
leaves the record built by `toRecord` unchanged — with records
compared as key→value maps at every depth (canonical form `canon`,
which sorts property lists) — provided (a) every entry of the sequence
parses to a path inside the exact fragment of the embedding
(`safePathB`: field segments avoid the prototype-chain and context
names, no all-digit field names, indices in array range) and no path
strictly extends another (`noNestingB`) — outside that fragment the
source's prototype-chain reads and writes (for example through a
`__proto__` segment) make even differently-pathed entries interfere —
and (b) the two swapped entries' keys parse to different but
*compatible* paths: neither a proper prefix of the other, the segments
agreeing until they diverge, the diverging segments of the same kind
(both field names or both indices).  Without compatibility the claim
fails (`c3_counterexample`): a field segment against an index segment
at the slot of divergence makes the two orders create an object versus
an array there.  The equality holds in the embedding for arbitrary
trees — the proof does not consume `hsafe`/`hnest` — but those two
hypotheses confine the statement to the entry sequences on which the
embedding tracks the source step for step, so that it asserts nothing
about the program's prototype interaction. -/
theorem c3_swap_compatible (xs ys : List RawEntry) (e1 e2 : RawEntry)
    (hsafe : (xs ++ e1 :: e2 :: ys).all (fun e => safePathB (getPaths e.1)) = true)
    (hnest : noNestingB (xs ++ e1 :: e2 :: ys) = true)
    (hc : compatB (getPaths e1.1) (getPaths e2.1) = true)
    (hne : getPaths e1.1 ≠ getPaths e2.1) :
    canon (toRecord (xs ++ e1 :: e2 :: ys))
      = canon (toRecord (xs ++ e2 :: e1 :: ys)) := by
  have wfroot : WfJS (JSVal.jobj []) := WfJS.jobj (by simp) (by simp [keysOf])
  unfold toRecord
  rw [List.foldl_append, List.foldl_append]
  simp only [List.foldl_cons]
  exact canon_foldl_congr ys
    (wf_toRecordStep (wf_toRecordStep (wf_foldl_toRecordStep xs wfroot) e1) e2)
    (wf_toRecordStep (wf_toRecordStep (wf_foldl_toRecordStep xs wfroot) e2) e1)
    (setPath_swap (getPaths e1.1) (getPaths e2.1) _ _ _ hc hne)

/-- C3 witness: the keys `"a"` and `"b"` parse to distinct compatible
safe paths, neither extending the other, and swapping the two entries
leaves the canonical record unchanged. -/
theorem c3_witness :
    ([((("a").toList : List Char), RawVal.rstr (("1").toList)),
        ((("b").toList : List Char), RawVal.rstr (("2").toList))].all
          (fun e => safePathB (getPaths e.1)) = true)
      ∧ noNestingB [((("a").toList : List Char), RawVal.rstr (("1").toList)),
          ((("b").toList : List Char), RawVal.rstr (("2").toList))] = true
      ∧ compatB (getPaths (("a").toList)) (getPaths (("b").toList)) = true
      ∧ getPaths (("a").toList) ≠ getPaths (("b").toList)
      ∧ canon (toRecord [((("a").toList), .rstr (("1").toList)),
            ((("b").toList), .rstr (("2").toList))])
          = canon (toRecord [((("b").toList), .rstr (("2").toList)),
            ((("a").toList), .rstr (("1").toList))]) :=
  ⟨by decide, by decide, by decide, by decide,
    c3_swap_compatible [] [] ((("a").toList), .rstr (("1").toList))
      ((("b").toList), .rstr (("2").toList)) (by decide) (by decide) (by decide)
      (by decide)⟩

end ZodWebApi
